import Mathlib

/-!
# Verification of the words-rain typing game engine

A shallow embedding, in Lean 4, of the client-side game engine of the
words-rain repository (the `app.js` game loop) together with the Go
settings endpoint of `main.go`.  JavaScript numbers that only carry
pixel coordinates are modelled as rationals; machine integers used as
counters (ids, score, combo) are modelled as `Nat`.  Randomness
(`Math.random`, the Fisher–Yates shuffle) and the canvas text
measurement are passed in as explicit parameters, so every definition
stays executable.
-/

namespace WordsRain

/-- A falling word, as pushed by `spawnWord` in `app.js`:
`{ id, text, x, y, width }`. -/
structure Word where
  id : Nat
  text : String
  x : ℚ
  y : ℚ
  width : ℚ
  deriving Repr, DecidableEq

/-- The engine's session state object (the `state` literal in `app.js`).
DOM-only fields (`effects`, `lastFrameTime`) and the purely cosmetic
speed level are not part of the model; `spawnTimer` is kept because the
tick loop reads and writes it. -/
structure GameState where
  running : Bool
  frozen : Bool
  gameOver : Bool
  score : Nat
  combo : Nat
  inputBuffer : String
  targetWordId : Option Nat
  pendingWords : List String
  activeWords : List Word
  missedWords : List String
  spawnTimer : ℚ
  nextWordId : Nat
  maxActiveWords : Nat
  deriving Repr, DecidableEq

/-- `WORLD.topY` in `app.js`. -/
def topY : ℚ := 26

/-- `WORLD.sidePadding` in `app.js`. -/
def sidePadding : ℚ := 18

/-- JavaScript's `String.prototype.startsWith`, modelled on the
character sequences of the two strings. -/
def jsStartsWith (s p : String) : Bool :=
  p.data.isPrefixOf s.data

/-- `chooseTarget`'s loop body: keep `best` unless `w` matches the
prefix and either `best` is null or `w.y > best.y`. -/
def chooseTargetAux (cand : String) : Option Word → List Word → Option Word
  | best, [] => best
  | best, w :: rest =>
    if jsStartsWith w.text cand then
      match best with
      | none => chooseTargetAux cand (some w) rest
      | some b => if b.y < w.y then chooseTargetAux cand (some w) rest
                  else chooseTargetAux cand (some b) rest
    else chooseTargetAux cand best rest

/-- `chooseTarget(prefix)` from `app.js`: scan `activeWords`, keeping the
first word whose text starts with the candidate and replacing it only on
strictly larger `y`. -/
def chooseTarget (activeWords : List Word) (cand : String) : Option Word :=
  chooseTargetAux cand none activeWords

/-- `clearInputTracking()` from `app.js`. -/
def clearInputTracking (s : GameState) : GameState :=
  { s with inputBuffer := "", targetWordId := none }

/-- `onWordMissed(word)` from `app.js`: push the text onto `missedWords`,
reset `combo`, and clear input tracking when the missed word was the
current target. -/
def onWordMissed (s : GameState) (word : Word) : GameState :=
  let s1 := { s with missedWords := s.missedWords ++ [word.text], combo := 0 }
  if s1.targetWordId = some word.id then clearInputTracking s1 else s1

/-- `removeActiveWordById(id)` from `app.js`: `findIndex` + `splice`,
i.e. remove the first word with the given id, returning it together with
the remaining list (`(none, unchanged)` when no word has the id). -/
def removeActiveWordById : List Word → Nat → Option Word × List Word
  | [], _ => (none, [])
  | w :: ws, i =>
    if w.id = i then (some w, ws)
    else
      let r := removeActiveWordById ws i
      (r.1, w :: r.2)

/-- The synchronous part of `onWordSolved(word)` in `app.js` (everything
executed before the first `await`): `combo += 1; score += combo;` and
`frozen = true`.  The HUD update, the score popup effect and the speech
request are external effects outside the model. -/
def onWordSolvedSync (s : GameState) : GameState :=
  { s with combo := s.combo + 1, score := s.score + (s.combo + 1), frozen := true }

/-- `maybeFinishGame()` from `app.js`: when the pending, active and
missed pools are all empty, stop the game and flag it as over (the DOM
writes of the final score are external effects). -/
def maybeFinishGame (s : GameState) : GameState :=
  if s.pendingWords = [] ∧ s.activeWords = [] ∧ s.missedWords = [] then
    { s with running := false, gameOver := true }
  else s

/-- The resumption of `onWordSolved` after both the dissolve animation
and speech have settled: `frozen = false` followed by
`maybeFinishGame()`. -/
def finishSolveSequence (s : GameState) : GameState :=
  maybeFinishGame { s with frozen := false }

/-- The tail of `handleTypedCharacter` in `app.js` once a target has
been resolved: commit the buffer and target id, and when the buffer now
equals the target's full text remove the word, clear tracking and start
the solve sequence. -/
def applyCommit (s : GameState) (nextBuffer : String) (target : Word) : GameState :=
  let s1 := { s with inputBuffer := nextBuffer, targetWordId := some target.id }
  if s1.inputBuffer = target.text then
    let r := removeActiveWordById s1.activeWords target.id
    let s2 := clearInputTracking { s1 with activeWords := r.2 }
    match r.1 with
    | some _ => onWordSolvedSync s2
    | none => s2
  else s1

/-- `handleTypedCharacter(ch)` from `app.js`.  Guard on
running/frozen/gameOver; try to extend the buffer, on failure mark a
chain break (when the prior buffer was non-empty, resetting `combo`) and
restart from the single lowercased character; if that also fails clear
input tracking, otherwise commit via `applyCommit`. -/
def handleTypedCharacter (s : GameState) (ch : Char) : GameState :=
  if !s.running || s.frozen || s.gameOver then s
  else
    let lower := ch.toLower
    let hadInput := 0 < s.inputBuffer.length
    let nextBuffer := s.inputBuffer.push lower
    match chooseTarget s.activeWords nextBuffer with
    | some target => applyCommit s nextBuffer target
    | none =>
      let s1 := if hadInput then { s with combo := 0 } else s
      let restart := String.singleton lower
      match chooseTarget s1.activeWords restart with
      | some target => applyCommit s1 restart target
      | none => clearInputTracking s1

/-- The two control keys the `keydown` listener forwards. -/
inductive ControlKey where
  | backspace
  | escape
  deriving Repr, DecidableEq

/-- `handleControlKey(key)` from `app.js`: Backspace drops the last
buffer character and re-resolves the target against the shortened
buffer; Escape clears input tracking. -/
def handleControlKey (s : GameState) (key : ControlKey) : GameState :=
  match key with
  | ControlKey.backspace =>
    if s.inputBuffer.length = 0 then s
    else
      let buf := s.inputBuffer.dropRight 1
      if buf.length = 0 then { s with inputBuffer := buf, targetWordId := none }
      else
        match chooseTarget s.activeWords buf with
        | some target => { s with inputBuffer := buf, targetWordId := some target.id }
        | none => { s with inputBuffer := buf, targetWordId := none }
  | ControlKey.escape => clearInputTracking s

/-- A delivered `keydown` event: a single-character key, one of the two
handled control keys, or any other key. -/
inductive KeyEvent where
  | printable (c : Char)
  | backspace
  | escape
  | other
  deriving Repr, DecidableEq

/-- The `/^[a-zA-Z]$/` test of the keydown listener. -/
def isLatinLetter (c : Char) : Bool :=
  ('a' ≤ c && c ≤ 'z') || ('A' ≤ c && c ≤ 'Z')

/-- The `keydown` listener installed in `init()` in `app.js`: ignore
everything while not running, route single Latin letters to
`handleTypedCharacter` and Backspace/Escape to `handleControlKey`. -/
def keydownListener (s : GameState) (e : KeyEvent) : GameState :=
  if !s.running then s
  else
    match e with
    | KeyEvent.printable c =>
      if isLatinLetter c then handleTypedCharacter s c else s
    | KeyEvent.backspace => handleControlKey s ControlKey.backspace
    | KeyEvent.escape => handleControlKey s ControlKey.escape
    | KeyEvent.other => s

/-- `chooseSpawnX(text)` from `app.js`, with the canvas width, the
canvas text measurement and the `Math.random()` draw passed explicitly:
`width = max(40, measure(text) + 16)`, and
`x = sidePadding + r * max(1, (canvasWidth - sidePadding - width) - sidePadding)`. -/
def chooseSpawnX (canvasWidth : ℚ) (measure : String → ℚ) (r : ℚ)
    (text : String) : ℚ × ℚ :=
  let width := max 40 (measure text + 16)
  let minX := sidePadding
  let maxX := canvasWidth - sidePadding - width
  (minX + r * max 1 (maxX - minX), width)

/-- The external inputs one `spawnWord()` call consumes: the
Fisher–Yates `shuffle` (a function of the list, standing for one draw of
the random permutation), the canvas width, the text measurement, and the
`Math.random()` draw used by `chooseSpawnX`. -/
structure SpawnEnv where
  shuffle : List String → List String
  canvasWidth : ℚ
  measure : String → ℚ
  rand : ℚ

/-- `spawnWord()` from `app.js`: fail when the active pool is at the
cap; refill an empty pending queue from a shuffled copy of the missed
pool (failing when both are empty); then dequeue the first pending text
and append a fresh word at the top line with id `nextWordId`. -/
def spawnWord (env : SpawnEnv) (s : GameState) : Bool × GameState :=
  if s.maxActiveWords ≤ s.activeWords.length then (false, s)
  else if s.pendingWords = [] ∧ s.missedWords = [] then (false, s)
  else
    let s1 :=
      if s.pendingWords = [] then
        { s with pendingWords := env.shuffle s.missedWords, missedWords := [] }
      else s
    match s1.pendingWords with
    | [] => (false, s1)
    | text :: rest =>
      let xw := chooseSpawnX env.canvasWidth env.measure env.rand text
      (true,
        { s1 with
          pendingWords := rest
          activeWords := s1.activeWords ++
            [{ id := s1.nextWordId, text := text, x := xw.1, y := topY, width := xw.2 }]
          nextWordId := s1.nextWordId + 1 })

/-- The fall half of `updateWorld` in `app.js`: advance each word's `y`
by `speed * dt`; words reaching the ground line are handed to
`onWordMissed`, the rest are kept as survivors, and at the end
`activeWords` is replaced by the survivor list. -/
def fallLoop (speed dt groundY : ℚ) :
    GameState → List Word → List Word → GameState
  | s, survivors, [] => { s with activeWords := survivors }
  | s, survivors, w :: rest =>
    let w1 := { w with y := w.y + speed * dt }
    if groundY ≤ w1.y then
      fallLoop speed dt groundY (onWordMissed s w1) survivors rest
    else
      fallLoop speed dt groundY s (survivors ++ [w1]) rest

/-- `updateWorld(dt)` from `app.js`.  The spawn-timer `while` loop runs
`⌊spawnTimer + dt⌋` spawn attempts (its exact semantics for a timer kept
in `[0, 1)` and `dt ≥ 0`), each consuming its own `SpawnEnv`; then every
active word falls by `speed * dt` (the speed, computed in the source by
`speedToPixelsPerSecond` through `Math.pow`, is passed in), misses are
processed, and `maybeFinishGame()` runs. -/
def updateWorld (envs : Nat → SpawnEnv) (speed : ℚ) (groundY : ℚ)
    (dt : ℚ) (s : GameState) : GameState :=
  let t := s.spawnTimer + dt
  let k := (⌊t⌋).toNat
  let s1 := { s with spawnTimer := t - k }
  let s2 := (List.range k).foldl (fun st i => (spawnWord (envs i) st).2) s1
  maybeFinishGame (fallLoop speed dt groundY s2 [] s2.activeWords)

/-- `resetRuntimeState()` from `app.js` (the fields the model keeps;
`pendingWords` is untouched here and set afterwards by `startGame`). -/
def resetRuntimeState (s : GameState) : GameState :=
  { s with
    running := true, frozen := false, gameOver := false,
    score := 0, combo := 0, inputBuffer := "", targetWordId := none,
    spawnTimer := 0, activeWords := [], missedWords := [], nextWordId := 1 }

/-- The three scoring events of the engine: a solve (`onWordSolved`), a
miss (`onWordMissed`), and a broken input chain (the `brokenChain`
branch of `handleTypedCharacter`). -/
inductive ScoreEvent where
  | solve
  | miss
  | chainBreak
  deriving Repr, DecidableEq

/-- The effect of one scoring event on the `(combo, score)` pair, read
off the three code sites: a solve does `combo += 1; score += combo`, a
miss and a chain break do `combo = 0`. -/
def comboScoreStep : Nat × Nat → ScoreEvent → Nat × Nat
  | (c, sc), ScoreEvent.solve => (c + 1, sc + (c + 1))
  | (_, sc), ScoreEvent.miss => (0, sc)
  | (_, sc), ScoreEvent.chainBreak => (0, sc)

/-- Replay a stream of scoring events over a `(combo, score)` pair. -/
def runEvents (evs : List ScoreEvent) (p : Nat × Nat) : Nat × Nat :=
  evs.foldl comboScoreStep p

/-! ## The Go settings endpoint (`main.go`) -/

/-- Go's `unicode.IsSpace` restricted to the code points that can occur
in practice: the Latin-1 white space set plus the Unicode `White_Space`
code points. -/
def goIsSpace (c : Char) : Bool :=
  c = ' ' || c = '\t' || c = '\n' || c = '\x0b' || c = '\x0c' || c = '\r' ||
  c = '\x85' || c = '\xa0' || c = ' ' ||
  (' ' ≤ c && c ≤ ' ') ||
  c = ' ' || c = ' ' || c = ' ' || c = ' ' || c = '　'

/-- Go's `strings.TrimSpace`: drop leading and trailing white space. -/
def goTrimSpace (s : String) : String :=
  String.mk (((s.data.dropWhile goIsSpace).reverse.dropWhile goIsSpace).reverse)

/-- The persisted `appConfig` structure of `main.go`. -/
structure AppConfig where
  host : String
  port : Nat
  wordbooksDir : String
  openBrowser : Bool
  accent : String
  wordbook : String
  deriving Repr, DecidableEq

/-- The JSON body written by `writeJSON(settingsResponse{...})`. -/
structure SettingsResponse where
  accent : String
  wordbook : String
  deriving Repr, DecidableEq

/-- Outcome of one `handleSettingsAccent` request, after the body has
been decoded: either a 400 bad-request error (nothing persisted), or a
persisted config together with the echoed settings snapshot. -/
inductive AccentOutcome where
  | badRequest
  | ok (persisted : AppConfig) (resp : SettingsResponse)
  deriving Repr, DecidableEq

/-- `handleSettingsAccent` from `main.go`, for a PUT request whose body
decoded to `reqAccent`, with `stored` the config read by
`loadConfigOptional` and `serverDir` the server's wordbooks directory:
trim the accent, reject anything other than `en-US` / `en-GB` with a
bad request, otherwise fill config defaults, set the accent, persist via
`writeConfig` and echo the saved snapshot. -/
def handleSettingsAccent (serverDir : String) (stored : AppConfig)
    (reqAccent : String) : AccentOutcome :=
  let accent := goTrimSpace reqAccent
  if accent ≠ "en-US" ∧ accent ≠ "en-GB" then AccentOutcome.badRequest
  else
    let cfg0 := stored
    let cfg1 := if cfg0.host = "" then { cfg0 with host := "127.0.0.1" } else cfg0
    let cfg2 := if cfg1.port = 0 then { cfg1 with port := 8080 } else cfg1
    let cfg3 :=
      if cfg2.wordbooksDir = "" then { cfg2 with wordbooksDir := serverDir } else cfg2
    let cfg4 :=
      if cfg3.host = "127.0.0.1" ∧ cfg3.port = 8080 ∧
          cfg3.wordbooksDir = serverDir ∧ cfg3.accent = "" ∧ cfg3.openBrowser = false
      then { cfg3 with openBrowser := true }
      else cfg3
    let cfg5 := { cfg4 with accent := accent }
    AccentOutcome.ok cfg5 { accent := cfg5.accent, wordbook := cfg5.wordbook }

/-- The initial `state` literal of `app.js` (page load, before any
session starts). -/
def initState : GameState :=
  { running := false, frozen := false, gameOver := false, score := 0, combo := 0,
    inputBuffer := "", targetWordId := none, pendingWords := [], activeWords := [],
    missedWords := [], spawnTimer := 0, nextWordId := 1, maxActiveWords := 8 }

/-- `goToSetup()` from `app.js`: stop the session and clear input
tracking (the panel toggling is a DOM effect). -/
def goToSetup (s : GameState) : GameState :=
  clearInputTracking { s with running := false, frozen := false, gameOver := false }

/-- The states the engine can actually be in: the initial state, closed
under the engine's entry points — the keydown listener, the guarded
per-frame world update of `loop`, the resumption of `onWordSolved` after
the awaited solve sequence, `startGame` (reset, install a pending list,
spawn once) and `goToSetup`. -/
inductive Reachable : GameState → Prop where
  | init : Reachable initState
  | key (s : GameState) (e : KeyEvent) : Reachable s →
      Reachable (keydownListener s e)
  | tick (s : GameState) (envs : Nat → SpawnEnv) (speed groundY dt : ℚ) :
      Reachable s → s.running = true → s.frozen = false → s.gameOver = false →
      Reachable (updateWorld envs speed groundY dt s)
  | solveResume (s : GameState) : Reachable s → s.frozen = true →
      Reachable (finishSolveSequence s)
  | start (s : GameState) (ws : List String) (env : SpawnEnv) : Reachable s →
      Reachable ((spawnWord env { resetRuntimeState s with pendingWords := ws }).2)
  | setup (s : GameState) : Reachable s → Reachable (goToSetup s)

/-- Every frozen state the engine can be in has its input tracking
cleared (freezing happens only right after `clearInputTracking`). -/
def FrozenInv (s : GameState) : Prop :=
  s.frozen = true → s.inputBuffer = "" ∧ s.targetWordId = none

/-- The spec's targeting invariant over an explicit buffer, target id
and word pool. -/
def TargetInvOver (buffer : String) (tid : Option Nat) (pool : List Word) : Prop :=
  ∀ i, tid = some i →
    ∃ w ∈ pool, w.id = i ∧ jsStartsWith w.text buffer = true

/-- The targeting invariant: a non-null `targetWordId` references a word
currently in `activeWords` whose text starts with `inputBuffer`. -/
def TargetInv (s : GameState) : Prop :=
  TargetInvOver s.inputBuffer s.targetWordId s.activeWords

/-- Every id assigned so far is below the `nextWordId` counter; in
particular all active ids are. -/
def IdInv (s : GameState) : Prop :=
  ∀ w ∈ s.activeWords, w.id < s.nextWordId

/-- The order invariant the append-only spawn maintains: active word
ids are strictly increasing along the array. -/
def SortedIds (s : GameState) : Prop :=
  List.Pairwise (fun a b => a < b) (s.activeWords.map Word.id)

/-! ## Lemmas about `chooseTarget` -/

theorem chooseTargetAux_some (cand : String) :
    ∀ (ws : List Word) (b : Word),
      ∃ w, chooseTargetAux cand (some b) ws = some w
  | [], b => ⟨b, rfl⟩
  | w :: rest, b => by
    simp only [chooseTargetAux]
    by_cases hw : jsStartsWith w.text cand
    · simp only [hw, if_true]
      by_cases hy : b.y < w.y
      · simpa [hy] using chooseTargetAux_some cand rest w
      · simpa [hy] using chooseTargetAux_some cand rest b
    · simpa [hw] using chooseTargetAux_some cand rest b

theorem chooseTargetAux_isSome (cand : String) :
    ∀ (ws : List Word) (best : Option Word),
      (∃ w ∈ ws, jsStartsWith w.text cand = true) →
      ∃ w, chooseTargetAux cand best ws = some w
  | [], _, h => absurd h (by simp)
  | w :: rest, best, h => by
    simp only [chooseTargetAux]
    by_cases hw : jsStartsWith w.text cand
    · simp only [hw, if_true]
      cases best with
      | none => exact chooseTargetAux_some cand rest w
      | some b =>
        by_cases hy : b.y < w.y
        · simpa [hy] using chooseTargetAux_some cand rest w
        · simpa [hy] using chooseTargetAux_some cand rest b
    · have hrest : ∃ v ∈ rest, jsStartsWith v.text cand = true := by
        rcases h with ⟨v, hv, hvs⟩
        rcases List.mem_cons.mp hv with rfl | hv'
        · exact absurd hvs (by simpa using hw)
        · exact ⟨v, hv', hvs⟩
      simpa [hw] using chooseTargetAux_isSome cand rest best hrest

theorem chooseTargetAux_mem (cand : String) :
    ∀ (ws : List Word) (best : Option Word) (w : Word),
      chooseTargetAux cand best ws = some w →
      best = some w ∨ (w ∈ ws ∧ jsStartsWith w.text cand = true)
  | [], best, w, h => Or.inl h
  | a :: rest, best, w, h => by
    cases best with
    | none =>
      by_cases ha : jsStartsWith a.text cand
      · simp only [chooseTargetAux, ha, if_true] at h
        rcases chooseTargetAux_mem cand rest (some a) w h with h' | h'
        · have haw : a = w := Option.some.inj h'
          exact Or.inr ⟨haw ▸ List.mem_cons_self a rest, haw ▸ ha⟩
        · exact Or.inr ⟨List.mem_cons_of_mem a h'.1, h'.2⟩
      · simp only [chooseTargetAux, ha, Bool.false_eq_true, if_false] at h
        rcases chooseTargetAux_mem cand rest none w h with h' | h'
        · exact Or.inl h'
        · exact Or.inr ⟨List.mem_cons_of_mem a h'.1, h'.2⟩
    | some b =>
      by_cases ha : jsStartsWith a.text cand
      · by_cases hy : b.y < a.y
        · simp only [chooseTargetAux, ha, hy, if_true] at h
          rcases chooseTargetAux_mem cand rest (some a) w h with h' | h'
          · have haw : a = w := Option.some.inj h'
            exact Or.inr ⟨haw ▸ List.mem_cons_self a rest, haw ▸ ha⟩
          · exact Or.inr ⟨List.mem_cons_of_mem a h'.1, h'.2⟩
        · simp only [chooseTargetAux, ha, hy, if_true, if_false] at h
          rcases chooseTargetAux_mem cand rest (some b) w h with h' | h'
          · exact Or.inl h'
          · exact Or.inr ⟨List.mem_cons_of_mem a h'.1, h'.2⟩
      · simp only [chooseTargetAux, ha, Bool.false_eq_true, if_false] at h
        rcases chooseTargetAux_mem cand rest (some b) w h with h' | h'
        · exact Or.inl h'
        · exact Or.inr ⟨List.mem_cons_of_mem a h'.1, h'.2⟩

theorem chooseTargetAux_dom (cand : String) :
    ∀ (ws : List Word) (best : Option Word) (w : Word),
      chooseTargetAux cand best ws = some w →
      (∀ b, best = some b → b.y ≤ w.y) ∧
      (∀ v ∈ ws, jsStartsWith v.text cand = true → v.y ≤ w.y)
  | [], best, w, h => by
    constructor
    · intro b hb
      rw [hb] at h
      exact le_of_eq (congrArg Word.y (Option.some.inj h))
    · intro v hv
      exact absurd hv (by simp)
  | a :: rest, best, w, h => by
    cases best with
    | none =>
      by_cases ha : jsStartsWith a.text cand
      · simp only [chooseTargetAux, ha, if_true] at h
        have ih := chooseTargetAux_dom cand rest (some a) w h
        refine ⟨by simp, ?_⟩
        intro v hv hvs
        rcases List.mem_cons.mp hv with rfl | hv'
        · exact ih.1 v rfl
        · exact ih.2 v hv' hvs
      · simp only [chooseTargetAux, ha, Bool.false_eq_true, if_false] at h
        have ih := chooseTargetAux_dom cand rest none w h
        refine ⟨by simp, ?_⟩
        intro v hv hvs
        rcases List.mem_cons.mp hv with rfl | hv'
        · exact absurd hvs (by simpa using ha)
        · exact ih.2 v hv' hvs
    | some b =>
      by_cases ha : jsStartsWith a.text cand
      · by_cases hy : b.y < a.y
        · simp only [chooseTargetAux, ha, hy, if_true] at h
          have ih := chooseTargetAux_dom cand rest (some a) w h
          have hay : a.y ≤ w.y := ih.1 a rfl
          refine ⟨?_, ?_⟩
          · intro b' hb'
            exact le_of_lt (lt_of_lt_of_le ((Option.some.inj hb') ▸ hy) hay)
          · intro v hv hvs
            rcases List.mem_cons.mp hv with rfl | hv'
            · exact hay
            · exact ih.2 v hv' hvs
        · simp only [chooseTargetAux, ha, hy, if_true, if_false] at h
          have ih := chooseTargetAux_dom cand rest (some b) w h
          have hby : b.y ≤ w.y := ih.1 b rfl
          refine ⟨?_, ?_⟩
          · intro b' hb'
            exact (Option.some.inj hb') ▸ hby
          · intro v hv hvs
            rcases List.mem_cons.mp hv with rfl | hv'
            · exact le_trans (le_of_not_lt hy) hby
            · exact ih.2 v hv' hvs
      · simp only [chooseTargetAux, ha, Bool.false_eq_true, if_false] at h
        have ih := chooseTargetAux_dom cand rest (some b) w h
        refine ⟨ih.1, ?_⟩
        intro v hv hvs
        rcases List.mem_cons.mp hv with rfl | hv'
        · exact absurd hvs (by simpa using ha)
        · exact ih.2 v hv' hvs

theorem chooseTargetAux_strict (cand : String) :
    ∀ (ws : List Word) (b w : Word),
      chooseTargetAux cand (some b) ws = some w → w = b ∨ b.y < w.y
  | [], b, w, h => Or.inl (Option.some.inj h).symm
  | a :: rest, b, w, h => by
    by_cases ha : jsStartsWith a.text cand
    · by_cases hy : b.y < a.y
      · simp only [chooseTargetAux, ha, hy, if_true] at h
        rcases chooseTargetAux_strict cand rest a w h with rfl | h'
        · exact Or.inr hy
        · exact Or.inr (lt_trans hy h')
      · simp only [chooseTargetAux, ha, hy, if_true, if_false] at h
        exact chooseTargetAux_strict cand rest b w h
    · simp only [chooseTargetAux, ha, Bool.false_eq_true, if_false] at h
      exact chooseTargetAux_strict cand rest b w h

theorem chooseTargetAux_tie (cand : String) :
    ∀ (ws : List Word) (best : Option Word) (w : Word),
      chooseTargetAux cand best ws = some w →
      (∀ b, best = some b → ∀ v ∈ ws, b.id < v.id) →
      ws.Pairwise (fun a b => a.id < b.id) →
      ∀ v ∈ ws, jsStartsWith v.text cand = true → v.y = w.y → w.id ≤ v.id
  | [], _, _, _, _, _ => by intro v hv; exact absurd hv (by simp)
  | a :: rest, best, w, h, hinv, hsort => by
    have hsort' := (List.pairwise_cons.mp hsort).2
    have hhead := (List.pairwise_cons.mp hsort).1
    cases best with
    | none =>
      by_cases ha : jsStartsWith a.text cand
      · simp only [chooseTargetAux, ha, if_true] at h
        intro v hv hvs hvy
        rcases List.mem_cons.mp hv with rfl | hv'
        · rcases chooseTargetAux_strict cand rest v w h with rfl | h'
          · exact le_refl _
          · exact absurd (hvy ▸ h') (lt_irrefl _)
        · exact chooseTargetAux_tie cand rest (some a) w h
            (fun b hb v' hv'' => (Option.some.inj hb) ▸ hhead v' hv'')
            hsort' v hv' hvs hvy
      · simp only [chooseTargetAux, ha, Bool.false_eq_true, if_false] at h
        intro v hv hvs hvy
        rcases List.mem_cons.mp hv with rfl | hv'
        · exact absurd hvs (by simpa using ha)
        · exact chooseTargetAux_tie cand rest none w h (by simp) hsort' v hv' hvs hvy
    | some b =>
      have hbinv : ∀ v ∈ rest, b.id < v.id := fun v hv =>
        hinv b rfl v (List.mem_cons_of_mem a hv)
      by_cases ha : jsStartsWith a.text cand
      · by_cases hy : b.y < a.y
        · simp only [chooseTargetAux, ha, hy, if_true] at h
          intro v hv hvs hvy
          rcases List.mem_cons.mp hv with rfl | hv'
          · rcases chooseTargetAux_strict cand rest v w h with rfl | h'
            · exact le_refl _
            · exact absurd (hvy ▸ h') (lt_irrefl _)
          · exact chooseTargetAux_tie cand rest (some a) w h
              (fun b' hb' v' hv'' => (Option.some.inj hb') ▸ hhead v' hv'')
              hsort' v hv' hvs hvy
        · simp only [chooseTargetAux, ha, hy, if_true, if_false] at h
          intro v hv hvs hvy
          rcases List.mem_cons.mp hv with rfl | hv'
          · rcases chooseTargetAux_strict cand rest b w h with h' | h'
            · subst h'
              exact le_of_lt (hinv w rfl v (List.mem_cons_self v rest))
            · exact absurd (lt_of_lt_of_le h' (le_of_eq hvy.symm)) hy
          · exact chooseTargetAux_tie cand rest (some b) w h
              (fun b' hb' => (Option.some.inj hb') ▸ hbinv) hsort' v hv' hvs hvy
      · simp only [chooseTargetAux, ha, Bool.false_eq_true, if_false] at h
        intro v hv hvs hvy
        rcases List.mem_cons.mp hv with rfl | hv'
        · exact absurd hvs (by simpa using ha)
        · exact chooseTargetAux_tie cand rest (some b) w h
            (fun b' hb' => (Option.some.inj hb') ▸ hbinv) hsort' v hv' hvs hvy

/-! ## Claim theorems -/

/-- C1: for every engine state and candidate prefix, if at least one
active word's text starts with the prefix, `chooseTarget` selects a
matching active word whose `y` is not exceeded by the `y` of any other
matching active word — among all matching active words the chosen target
has the largest `y` (nearest to the ground). -/
theorem c1_chooseTarget_nearest_ground (active : List Word) (cand : String)
    (h : ∃ w ∈ active, jsStartsWith w.text cand = true) :
    ∃ w, chooseTarget active cand = some w ∧ w ∈ active ∧
      jsStartsWith w.text cand = true ∧
      ∀ v ∈ active, jsStartsWith v.text cand = true → v.y ≤ w.y := by
  rcases chooseTargetAux_isSome cand active none h with ⟨w, hw⟩
  rcases chooseTargetAux_mem cand active none w hw with h' | h'
  · exact Option.noConfusion h'
  · exact ⟨w, hw, h'.1, h'.2, (chooseTargetAux_dom cand active none w hw).2⟩

theorem c1_witness :
    (∃ w ∈ [Word.mk 1 "cat" 0 10 50, Word.mk 2 "car" 0 20 50],
        jsStartsWith w.text "ca" = true) ∧
    ∃ w, chooseTarget [Word.mk 1 "cat" 0 10 50, Word.mk 2 "car" 0 20 50] "ca" = some w ∧
      w ∈ [Word.mk 1 "cat" 0 10 50, Word.mk 2 "car" 0 20 50] ∧
      jsStartsWith w.text "ca" = true ∧
      ∀ v ∈ [Word.mk 1 "cat" 0 10 50, Word.mk 2 "car" 0 20 50],
        jsStartsWith v.text "ca" = true → v.y ≤ w.y :=
  ⟨⟨Word.mk 1 "cat" 0 10 50, by decide, by decide⟩,
   c1_chooseTarget_nearest_ground _ "ca"
     ⟨Word.mk 1 "cat" 0 10 50, by decide, by decide⟩⟩

/-- C5: `maybeFinishGame` sets `running = false` and `gameOver = true`
exactly when `pendingWords`, `activeWords` and `missedWords` are all
empty; otherwise it changes nothing; it never mutates `score` or
`combo`; and it is idempotent, so repeated calls in the all-empty state
keep `gameOver = true` with the score snapshot unchanged. -/
theorem c5_maybeFinishGame_spec (s : GameState) :
    (s.pendingWords = [] ∧ s.activeWords = [] ∧ s.missedWords = [] →
      maybeFinishGame s = { s with running := false, gameOver := true }) ∧
    (¬(s.pendingWords = [] ∧ s.activeWords = [] ∧ s.missedWords = []) →
      maybeFinishGame s = s) ∧
    (maybeFinishGame s).score = s.score ∧
    (maybeFinishGame s).combo = s.combo ∧
    maybeFinishGame (maybeFinishGame s) = maybeFinishGame s := by
  unfold maybeFinishGame
  by_cases h : s.pendingWords = [] ∧ s.activeWords = [] ∧ s.missedWords = []
  · simp [h]
  · simp [h]

theorem c5_witness :
    maybeFinishGame
      { running := true, frozen := false, gameOver := false, score := 6, combo := 3,
        inputBuffer := "", targetWordId := none,
        pendingWords := [], activeWords := [], missedWords := [],
        spawnTimer := 0, nextWordId := 4, maxActiveWords := 8 } =
    { running := false, frozen := false, gameOver := true, score := 6, combo := 3,
      inputBuffer := "", targetWordId := none,
      pendingWords := [], activeWords := [], missedWords := [],
      spawnTimer := 0, nextWordId := 4, maxActiveWords := 8 } :=
  (c5_maybeFinishGame_spec _).1 ⟨rfl, rfl, rfl⟩

theorem removeActiveWordById_found :
    ∀ (ws : List Word) (i : Nat), (∃ u ∈ ws, u.id = i) →
      ∃ u, (removeActiveWordById ws i).1 = some u
  | [], i, h => absurd h (by simp)
  | w :: ws, i, h => by
    by_cases hw : w.id = i
    · exact ⟨w, by simp [removeActiveWordById, hw]⟩
    · have h' : ∃ u ∈ ws, u.id = i := by
        rcases h with ⟨u, hu, hui⟩
        rcases List.mem_cons.mp hu with rfl | hu'
        · exact absurd hui hw
        · exact ⟨u, hu', hui⟩
      rcases removeActiveWordById_found ws i h' with ⟨u, hu⟩
      exact ⟨u, by simp [removeActiveWordById, hw, hu]⟩

theorem applyCommit_not_full (s : GameState) (nb : String) (t : Word)
    (h : nb ≠ t.text) :
    applyCommit s nb t = { s with inputBuffer := nb, targetWordId := some t.id } := by
  unfold applyCommit
  simp [h]

theorem applyCommit_full (s : GameState) (nb : String) (t : Word)
    (h : nb = t.text) (hmem : ∃ u ∈ s.activeWords, u.id = t.id) :
    applyCommit s nb t =
      onWordSolvedSync (clearInputTracking
        { s with inputBuffer := nb, targetWordId := some t.id,
                 activeWords := (removeActiveWordById s.activeWords t.id).2 }) := by
  unfold applyCommit
  rcases removeActiveWordById_found s.activeWords t.id hmem with ⟨u, hu⟩
  simp [h, hu]

/-- C3: for every typed character while running and not frozen, the
keystroke algorithm is: try to extend the buffer with the lowercased
character and resolve a target for the candidate; on failure restart
matching from the single character (resetting `combo` exactly when the
prior buffer was non-empty); if that also fails clear `inputBuffer` and
`targetWordId`, retaining nothing; otherwise commit buffer and target
id, and when the committed buffer equals the target's full text the word
is removed from `activeWords` and input tracking is cleared before the
solve sequence (modelled by `onWordSolvedSync`) begins. -/
theorem c3_keystroke_algorithm (s : GameState) (ch : Char)
    (hr : s.running = true) (hf : s.frozen = false) (hg : s.gameOver = false) :
    (∀ t, chooseTarget s.activeWords (s.inputBuffer.push ch.toLower) = some t →
      (s.inputBuffer.push ch.toLower ≠ t.text →
        handleTypedCharacter s ch =
          { s with inputBuffer := s.inputBuffer.push ch.toLower,
                   targetWordId := some t.id }) ∧
      (s.inputBuffer.push ch.toLower = t.text →
        handleTypedCharacter s ch =
          onWordSolvedSync (clearInputTracking
            { s with inputBuffer := s.inputBuffer.push ch.toLower,
                     targetWordId := some t.id,
                     activeWords := (removeActiveWordById s.activeWords t.id).2 }))) ∧
    (chooseTarget s.activeWords (s.inputBuffer.push ch.toLower) = none →
      (∀ t, chooseTarget s.activeWords (String.singleton ch.toLower) = some t →
        (String.singleton ch.toLower ≠ t.text →
          handleTypedCharacter s ch =
            { s with combo := if 0 < s.inputBuffer.length then 0 else s.combo,
                     inputBuffer := String.singleton ch.toLower,
                     targetWordId := some t.id }) ∧
        (String.singleton ch.toLower = t.text →
          handleTypedCharacter s ch =
            onWordSolvedSync (clearInputTracking
              { s with combo := if 0 < s.inputBuffer.length then 0 else s.combo,
                       inputBuffer := String.singleton ch.toLower,
                       targetWordId := some t.id,
                       activeWords := (removeActiveWordById s.activeWords t.id).2 }))) ∧
      (chooseTarget s.activeWords (String.singleton ch.toLower) = none →
        handleTypedCharacter s ch =
          clearInputTracking
            { s with combo := if 0 < s.inputBuffer.length then 0 else s.combo })) := by
  constructor
  · intro t ht
    have hbody : handleTypedCharacter s ch =
        applyCommit s (s.inputBuffer.push ch.toLower) t := by
      unfold handleTypedCharacter
      simp [hr, hf, hg, ht]
    constructor
    · intro hne
      rw [hbody, applyCommit_not_full s _ t hne]
    · intro heq
      have hmem : ∃ u ∈ s.activeWords, u.id = t.id := by
        rcases chooseTargetAux_mem _ s.activeWords none t ht with h' | h'
        · exact Option.noConfusion h'
        · exact ⟨t, h'.1, rfl⟩
      rw [hbody, applyCommit_full s _ t heq hmem]
  · intro hnone
    by_cases hin : 0 < s.inputBuffer.length
    · constructor
      · intro t ht
        have hbody : handleTypedCharacter s ch =
            applyCommit { s with combo := 0 } (String.singleton ch.toLower) t := by
          unfold handleTypedCharacter
          simp [hr, hf, hg, hnone, hin, ht]
        constructor
        · intro hne
          rw [hbody, applyCommit_not_full _ _ t hne]
          simp [hin]
        · intro heq
          have hmem : ∃ u ∈ ({ s with combo := 0 } : GameState).activeWords,
              u.id = t.id := by
            rcases chooseTargetAux_mem _ s.activeWords none t ht with h' | h'
            · exact Option.noConfusion h'
            · exact ⟨t, h'.1, rfl⟩
          rw [hbody, applyCommit_full _ _ t heq hmem]
          simp [hin]
      · intro hnone2
        have hbody : handleTypedCharacter s ch =
            clearInputTracking { s with combo := 0 } := by
          unfold handleTypedCharacter
          simp [hr, hf, hg, hnone, hin, hnone2]
        rw [hbody]
        simp [hin]
    · constructor
      · intro t ht
        have hbody : handleTypedCharacter s ch =
            applyCommit s (String.singleton ch.toLower) t := by
          unfold handleTypedCharacter
          simp [hr, hf, hg, hnone, hin, ht]
        constructor
        · intro hne
          rw [hbody, applyCommit_not_full _ _ t hne]
          simp [hin]
        · intro heq
          have hmem : ∃ u ∈ s.activeWords, u.id = t.id := by
            rcases chooseTargetAux_mem _ s.activeWords none t ht with h' | h'
            · exact Option.noConfusion h'
            · exact ⟨t, h'.1, rfl⟩
          rw [hbody, applyCommit_full _ _ t heq hmem]
          simp [hin]
      · intro hnone2
        have hbody : handleTypedCharacter s ch = clearInputTracking s := by
          unfold handleTypedCharacter
          simp [hr, hf, hg, hnone, hin, hnone2]
        rw [hbody]
        simp [hin]

theorem c3_witness :
    handleTypedCharacter
      { running := true, frozen := false, gameOver := false, score := 0, combo := 0,
        inputBuffer := "", targetWordId := none,
        pendingWords := [], activeWords := [Word.mk 1 "cat" 0 10 50],
        missedWords := [], spawnTimer := 0, nextWordId := 2, maxActiveWords := 8 }
      'c' =
    { running := true, frozen := false, gameOver := false, score := 0, combo := 0,
      inputBuffer := "c", targetWordId := some 1,
      pendingWords := [], activeWords := [Word.mk 1 "cat" 0 10 50],
      missedWords := [], spawnTimer := 0, nextWordId := 2, maxActiveWords := 8 } :=
  ((c3_keystroke_algorithm _ 'c' rfl rfl rfl).1
    (Word.mk 1 "cat" 0 10 50) (by decide)).1 (by decide)

/-! ## Scoring lemmas -/

theorem runEvents_replicate_solve :
    ∀ (k c sc : Nat), runEvents (List.replicate k ScoreEvent.solve) (c, sc) =
      (c + k, sc + ∑ i in Finset.range k, (c + i + 1))
  | 0, c, sc => by simp [runEvents]
  | k + 1, c, sc => by
    have ih := runEvents_replicate_solve k (c + 1) (sc + (c + 1))
    simp only [runEvents, List.replicate_succ, List.foldl_cons] at ih ⊢
    rw [show comboScoreStep (c, sc) ScoreEvent.solve = (c + 1, sc + (c + 1)) from rfl, ih]
    have hterm : ∀ i, c + 1 + i + 1 = c + (i + 1) + 1 := fun i => by omega
    rw [Finset.sum_range_succ']
    simp only [hterm, Prod.mk.injEq]
    omega

theorem runEvents_score_mono :
    ∀ (evs : List ScoreEvent) (c sc : Nat), sc ≤ (runEvents evs (c, sc)).2
  | [], _, _ => le_refl _
  | e :: evs, c, sc => by
    simp only [runEvents, List.foldl_cons]
    cases e with
    | solve =>
      exact le_trans (Nat.le_add_right sc (c + 1))
        (runEvents_score_mono evs (c + 1) (sc + (c + 1)))
    | miss => exact runEvents_score_mono evs 0 sc
    | chainBreak => exact runEvents_score_mono evs 0 sc

theorem runEvents_trailing_reset (evs : List ScoreEvent) (c sc : Nat)
    (e : ScoreEvent) (he : e = ScoreEvent.miss ∨ e = ScoreEvent.chainBreak) :
    (runEvents (evs ++ [e]) (c, sc)).1 = 0 := by
  unfold runEvents
  rw [List.foldl_append]
  rcases hp : List.foldl comboScoreStep (c, sc) evs with ⟨c', sc'⟩
  rcases he with rfl | rfl <;> simp [comboScoreStep]

theorem applyCommit_score_mono (s : GameState) (nb : String) (t : Word) :
    s.score ≤ (applyCommit s nb t).score := by
  simp only [applyCommit]
  split_ifs with h
  · rcases hrem : (removeActiveWordById s.activeWords t.id).1 with _ | u
    · simp [hrem, clearInputTracking]
    · simp [hrem, clearInputTracking, onWordSolvedSync]
  · exact le_refl _

theorem handleTypedCharacter_score_mono (s : GameState) (ch : Char) :
    s.score ≤ (handleTypedCharacter s ch).score := by
  unfold handleTypedCharacter
  split_ifs with h
  · exact le_refl _
  · rcases h1 : chooseTarget s.activeWords (s.inputBuffer.push ch.toLower) with _ | t
    · simp only [h1]
      by_cases hin : 0 < s.inputBuffer.length
      · simp only [hin, if_true]
        rcases h2 : chooseTarget s.activeWords (String.singleton ch.toLower) with _ | t
        · simp [h2, clearInputTracking]
        · simpa [h2] using
            applyCommit_score_mono { s with combo := 0 } (String.singleton ch.toLower) t
      · simp only [hin, if_false]
        rcases h2 : chooseTarget s.activeWords (String.singleton ch.toLower) with _ | t
        · simp [h2, clearInputTracking]
        · simpa [h2] using applyCommit_score_mono s (String.singleton ch.toLower) t
    · simpa [h1] using applyCommit_score_mono s (s.inputBuffer.push ch.toLower) t

theorem handleControlKey_score_eq (s : GameState) (k : ControlKey) :
    (handleControlKey s k).score = s.score := by
  cases k with
  | backspace =>
    simp only [handleControlKey]
    split_ifs with h1 h2
    · rfl
    · rfl
    · rcases h : chooseTarget s.activeWords (s.inputBuffer.dropRight 1) with _ | t <;>
        simp [h]
  | escape => rfl

theorem keydownListener_score_mono (s : GameState) (e : KeyEvent) :
    s.score ≤ (keydownListener s e).score := by
  unfold keydownListener
  split_ifs with h
  · exact le_refl _
  · cases e with
    | printable c =>
      by_cases hl : isLatinLetter c
      · simpa [hl] using handleTypedCharacter_score_mono s c
      · simp [hl]
    | backspace => exact le_of_eq (handleControlKey_score_eq s ControlKey.backspace).symm
    | escape => exact le_of_eq (handleControlKey_score_eq s ControlKey.escape).symm
    | other => exact le_refl _

theorem onWordMissed_fields (s : GameState) (w : Word) :
    (onWordMissed s w).combo = 0 ∧ (onWordMissed s w).score = s.score := by
  simp only [onWordMissed, clearInputTracking]
  split_ifs <;> simp

theorem spawnWord_score_eq (env : SpawnEnv) (s : GameState) :
    ((spawnWord env s).2).score = s.score := by
  simp only [spawnWord]
  split_ifs with h1 h2 hp
  · rfl
  · rfl
  · rcases hs : env.shuffle s.missedWords with _ | ⟨t, rest⟩ <;> simp [hs]
  · rcases hs : s.pendingWords with _ | ⟨t, rest⟩ <;> simp [hs]

theorem fallLoop_score_eq (speed dt groundY : ℚ) :
    ∀ (s : GameState) (survivors ws : List Word),
      (fallLoop speed dt groundY s survivors ws).score = s.score
  | _, _, [] => rfl
  | s, survivors, w :: rest => by
    simp only [fallLoop]
    split_ifs with h
    · rw [fallLoop_score_eq speed dt groundY (onWordMissed s _) survivors rest]
      exact (onWordMissed_fields s _).2
    · exact fallLoop_score_eq speed dt groundY s (survivors ++ [_]) rest

theorem spawnFold_score_eq (envs : Nat → SpawnEnv) :
    ∀ (l : List Nat) (s : GameState),
      (l.foldl (fun st i => (spawnWord (envs i) st).2) s).score = s.score
  | [], _ => rfl
  | i :: l, s => by
    rw [List.foldl_cons, spawnFold_score_eq envs l ((spawnWord (envs i) s).2),
      spawnWord_score_eq]

theorem maybeFinishGame_score_eq (s : GameState) :
    (maybeFinishGame s).score = s.score := by
  unfold maybeFinishGame
  split_ifs <;> rfl

theorem updateWorld_score_eq (envs : Nat → SpawnEnv) (speed groundY dt : ℚ)
    (s : GameState) :
    (updateWorld envs speed groundY dt s).score = s.score := by
  unfold updateWorld
  rw [maybeFinishGame_score_eq, fallLoop_score_eq, spawnFold_score_eq]

/-- C4: `combo` and `score` are derived purely from the
solve/miss/chain-break event stream: a solve increments `combo` and adds
the new value to `score` (so `k` consecutive solves from a fresh combo
add `1 + 2 + ... + k`), a miss and a chain break reset `combo` to 0 —
the chain break resetting `combo` even when the restart from the single
character succeeds (an immediate restart solve then scores `0 + 1`) —
and `score` never decreases under any engine operation except the full
reset, which zeroes it. -/
theorem c4_combo_score_semantics :
    (∀ s : GameState, (onWordSolvedSync s).combo = s.combo + 1 ∧
      (onWordSolvedSync s).score = s.score + (s.combo + 1)) ∧
    (∀ (s : GameState) (w : Word),
      (onWordMissed s w).combo = 0 ∧ (onWordMissed s w).score = s.score) ∧
    (∀ k sc : Nat, runEvents (List.replicate k ScoreEvent.solve) (0, sc) =
      (k, sc + ∑ i in Finset.range k, (i + 1))) ∧
    (∀ (evs : List ScoreEvent) (c sc : Nat), sc ≤ (runEvents evs (c, sc)).2) ∧
    (∀ (evs : List ScoreEvent) (c sc : Nat) (e : ScoreEvent),
      e = ScoreEvent.miss ∨ e = ScoreEvent.chainBreak →
      (runEvents (evs ++ [e]) (c, sc)).1 = 0) ∧
    (∀ (s : GameState) (ch : Char),
      s.running = true → s.frozen = false → s.gameOver = false →
      chooseTarget s.activeWords (s.inputBuffer.push ch.toLower) = none →
      0 < s.inputBuffer.length →
      ((∀ t, chooseTarget s.activeWords (String.singleton ch.toLower) = some t →
          String.singleton ch.toLower ≠ t.text →
          (handleTypedCharacter s ch).combo = 0) ∧
       (chooseTarget s.activeWords (String.singleton ch.toLower) = none →
          (handleTypedCharacter s ch).combo = 0) ∧
       (∀ t, chooseTarget s.activeWords (String.singleton ch.toLower) = some t →
          String.singleton ch.toLower = t.text →
          (handleTypedCharacter s ch).combo = 1 ∧
          (handleTypedCharacter s ch).score = s.score + 1))) ∧
    (∀ (s : GameState) (e : KeyEvent), s.score ≤ (keydownListener s e).score) ∧
    (∀ (envs : Nat → SpawnEnv) (speed groundY dt : ℚ) (s : GameState),
      (updateWorld envs speed groundY dt s).score = s.score) ∧
    (∀ s : GameState, (finishSolveSequence s).score = s.score) ∧
    (∀ s : GameState,
      (resetRuntimeState s).score = 0 ∧ (resetRuntimeState s).combo = 0) := by
  refine ⟨?_, ?_, ?_, runEvents_score_mono, runEvents_trailing_reset, ?_,
    keydownListener_score_mono, updateWorld_score_eq, ?_, ?_⟩
  · intro s
    exact ⟨rfl, rfl⟩
  · exact onWordMissed_fields
  · intro k sc
    simpa using runEvents_replicate_solve k 0 sc
  · intro s ch hr hf hg hnone hin
    refine ⟨?_, ?_, ?_⟩
    · intro t ht hne
      have hbody : handleTypedCharacter s ch =
          applyCommit { s with combo := 0 } (String.singleton ch.toLower) t := by
        unfold handleTypedCharacter
        simp [hr, hf, hg, hnone, hin, ht]
      rw [hbody, applyCommit_not_full _ _ t hne]
    · intro hnone2
      have hbody : handleTypedCharacter s ch =
          clearInputTracking { s with combo := 0 } := by
        unfold handleTypedCharacter
        simp [hr, hf, hg, hnone, hin, hnone2]
      rw [hbody]
      rfl
    · intro t ht heq
      have hmem : ∃ u ∈ ({ s with combo := 0 } : GameState).activeWords,
          u.id = t.id := by
        rcases chooseTargetAux_mem _ s.activeWords none t ht with h' | h'
        · exact Option.noConfusion h'
        · exact ⟨t, h'.1, rfl⟩
      have hbody : handleTypedCharacter s ch =
          applyCommit { s with combo := 0 } (String.singleton ch.toLower) t := by
        unfold handleTypedCharacter
        simp [hr, hf, hg, hnone, hin, ht]
      rw [hbody, applyCommit_full _ _ t heq hmem]
      exact ⟨rfl, rfl⟩
  · intro s
    unfold finishSolveSequence
    rw [maybeFinishGame_score_eq]
  · intro s
    exact ⟨rfl, rfl⟩

theorem c4_witness :
    (handleTypedCharacter
      { running := true, frozen := false, gameOver := false, score := 9, combo := 5,
        inputBuffer := "x", targetWordId := none,
        pendingWords := [], activeWords := [Word.mk 1 "cat" 0 10 50],
        missedWords := [], spawnTimer := 0, nextWordId := 2, maxActiveWords := 8 }
      'c').combo = 0 :=
  ((c4_combo_score_semantics.2.2.2.2.2.1
      { running := true, frozen := false, gameOver := false, score := 9, combo := 5,
        inputBuffer := "x", targetWordId := none,
        pendingWords := [], activeWords := [Word.mk 1 "cat" 0 10 50],
        missedWords := [], spawnTimer := 0, nextWordId := 2, maxActiveWords := 8 }
      'c' rfl rfl rfl (by decide) (by decide)).1)
    (Word.mk 1 "cat" 0 10 50) (by decide) (by decide)

/-! ## The targeting invariant -/

theorem targetInv_of_none {s : GameState} (h : s.targetWordId = none) :
    TargetInv s := by
  intro i hi
  rw [h] at hi
  exact Option.noConfusion hi

theorem clearInputTracking_targetInv (s : GameState) :
    TargetInv (clearInputTracking s) :=
  targetInv_of_none rfl

theorem applyCommit_targetInv (s : GameState) (nb : String) (t : Word)
    (hmem : t ∈ s.activeWords) (hst : jsStartsWith t.text nb = true) :
    TargetInv (applyCommit s nb t) := by
  simp only [applyCommit]
  split_ifs with h
  · rcases hrem : (removeActiveWordById s.activeWords t.id).1 with _ | u
    · exact clearInputTracking_targetInv _
    · intro i hi
      exact Option.noConfusion hi
  · intro i hi
    simp only at hi
    exact ⟨t, hmem, Option.some.inj hi, hst⟩

theorem handleTypedCharacter_targetInv (s : GameState) (ch : Char)
    (hs : TargetInv s) : TargetInv (handleTypedCharacter s ch) := by
  unfold handleTypedCharacter
  split_ifs with h
  · exact hs
  · rcases h1 : chooseTarget s.activeWords (s.inputBuffer.push ch.toLower) with _ | t
    · simp only [h1]
      by_cases hin : 0 < s.inputBuffer.length
      · simp only [hin, if_true]
        rcases h2 : chooseTarget s.activeWords (String.singleton ch.toLower) with _ | t
        · simp only [h2]
          exact clearInputTracking_targetInv _
        · simp only [h2]
          rcases chooseTargetAux_mem _ s.activeWords none t h2 with h' | h'
          · exact Option.noConfusion h'
          · exact applyCommit_targetInv { s with combo := 0 } _ t h'.1 h'.2
      · simp only [hin, if_false]
        rcases h2 : chooseTarget s.activeWords (String.singleton ch.toLower) with _ | t
        · simp only [h2]
          exact clearInputTracking_targetInv _
        · simp only [h2]
          rcases chooseTargetAux_mem _ s.activeWords none t h2 with h' | h'
          · exact Option.noConfusion h'
          · exact applyCommit_targetInv s _ t h'.1 h'.2
    · simp only [h1]
      rcases chooseTargetAux_mem _ s.activeWords none t h1 with h' | h'
      · exact Option.noConfusion h'
      · exact applyCommit_targetInv s _ t h'.1 h'.2

theorem handleControlKey_targetInv (s : GameState) (k : ControlKey)
    (hs : TargetInv s) : TargetInv (handleControlKey s k) := by
  cases k with
  | backspace =>
    simp only [handleControlKey]
    split_ifs with h1 h2
    · exact hs
    · exact targetInv_of_none rfl
    · rcases h : chooseTarget s.activeWords (s.inputBuffer.dropRight 1) with _ | t
      · simp only [h]
        exact targetInv_of_none rfl
      · simp only [h]
        rcases chooseTargetAux_mem _ s.activeWords none t h with h' | h'
        · exact Option.noConfusion h'
        · intro i hi
          simp only at hi
          exact ⟨t, h'.1, Option.some.inj hi, h'.2⟩
  | escape => exact clearInputTracking_targetInv s

theorem keydownListener_targetInv (s : GameState) (e : KeyEvent)
    (hs : TargetInv s) : TargetInv (keydownListener s e) := by
  unfold keydownListener
  split_ifs with h
  · exact hs
  · cases e with
    | printable c =>
      by_cases hl : isLatinLetter c
      · simpa [hl] using handleTypedCharacter_targetInv s c hs
      · simpa [hl] using hs
    | backspace => exact handleControlKey_targetInv s ControlKey.backspace hs
    | escape => exact handleControlKey_targetInv s ControlKey.escape hs
    | other => exact hs

theorem spawnWord_targetInv (env : SpawnEnv) (s : GameState)
    (hs : TargetInv s) : TargetInv ((spawnWord env s).2) := by
  simp only [spawnWord]
  split_ifs with h1 h2 hp
  · exact hs
  · exact hs
  · rcases hsh : env.shuffle s.missedWords with _ | ⟨t, rest⟩ <;> simp only [hsh]
    · intro i hi
      rcases hs i hi with ⟨w, hw, hwi, hwb⟩
      exact ⟨w, hw, hwi, hwb⟩
    · intro i hi
      rcases hs i hi with ⟨w, hw, hwi, hwb⟩
      exact ⟨w, List.mem_append_left _ hw, hwi, hwb⟩
  · rcases hpl : s.pendingWords with _ | ⟨t, rest⟩ <;> simp only [hpl]
    · exact hs
    · intro i hi
      rcases hs i hi with ⟨w, hw, hwi, hwb⟩
      exact ⟨w, List.mem_append_left _ hw, hwi, hwb⟩

theorem onWordMissed_keep_target (s : GameState) (w : Word)
    (h : ¬ s.targetWordId = some w.id) :
    onWordMissed s w =
      { s with missedWords := s.missedWords ++ [w.text], combo := 0 } := by
  simp only [onWordMissed]
  rw [if_neg (by simpa using h)]

theorem onWordMissed_clears_target (s : GameState) (w : Word)
    (h : s.targetWordId = some w.id) :
    (onWordMissed s w).targetWordId = none := by
  simp only [onWordMissed]
  rw [if_pos (by simpa using h)]
  rfl

theorem fallLoop_targetInv (speed dt groundY : ℚ) :
    ∀ (s : GameState) (survivors ws : List Word),
      TargetInvOver s.inputBuffer s.targetWordId (survivors ++ ws) →
      TargetInv (fallLoop speed dt groundY s survivors ws)
  | s, survivors, [], hs => by
    simp only [fallLoop]
    intro i hi
    rcases hs i hi with ⟨w, hw, hwi, hwb⟩
    exact ⟨w, by simpa using hw, hwi, hwb⟩
  | s, survivors, w :: rest, hs => by
    simp only [fallLoop]
    split_ifs with h
    · by_cases ht : s.targetWordId = some w.id
      · apply fallLoop_targetInv speed dt groundY _ survivors rest
        intro i hi
        rw [onWordMissed_clears_target s _ (by simpa using ht)] at hi
        exact Option.noConfusion hi
      · apply fallLoop_targetInv speed dt groundY _ survivors rest
        rw [onWordMissed_keep_target s _ (by simpa using ht)]
        intro i hi
        simp only at hi
        rcases hs i hi with ⟨v, hv, hvi, hvb⟩
        rcases List.mem_append.mp hv with hv' | hv'
        · exact ⟨v, List.mem_append_left _ hv', hvi, hvb⟩
        · rcases List.mem_cons.mp hv' with rfl | hv''
          · exact absurd (hi.trans (congrArg some hvi.symm)) ht
          · exact ⟨v, List.mem_append_right _ hv'', hvi, hvb⟩
    · apply fallLoop_targetInv speed dt groundY s (survivors ++ [_]) rest
      intro i hi
      rcases hs i hi with ⟨v, hv, hvi, hvb⟩
      rcases List.mem_append.mp hv with hv' | hv'
      · exact ⟨v, by simp [hv'], hvi, hvb⟩
      · rcases List.mem_cons.mp hv' with rfl | hv''
        · exact ⟨{ v with y := v.y + speed * dt }, by simp, hvi, hvb⟩
        · exact ⟨v, by simp [hv''], hvi, hvb⟩

theorem maybeFinishGame_targetInv (s : GameState) (hs : TargetInv s) :
    TargetInv (maybeFinishGame s) := by
  unfold maybeFinishGame
  split_ifs with h
  · intro i hi
    rcases hs i hi with ⟨w, hw, hwi, hwb⟩
    exact ⟨w, hw, hwi, hwb⟩
  · exact hs

theorem spawnFold_targetInv (envs : Nat → SpawnEnv) :
    ∀ (l : List Nat) (s : GameState), TargetInv s →
      TargetInv (l.foldl (fun st i => (spawnWord (envs i) st).2) s)
  | [], _, hs => hs
  | i :: l, s, hs => by
    rw [List.foldl_cons]
    exact spawnFold_targetInv envs l _ (spawnWord_targetInv (envs i) s hs)

theorem updateWorld_targetInv (envs : Nat → SpawnEnv) (speed groundY dt : ℚ)
    (s : GameState) (hs : TargetInv s) :
    TargetInv (updateWorld envs speed groundY dt s) := by
  unfold updateWorld
  apply maybeFinishGame_targetInv
  apply fallLoop_targetInv
  have h1 : TargetInv { s with spawnTimer := s.spawnTimer + dt - ↑(⌊s.spawnTimer + dt⌋).toNat } := hs
  have h2 := spawnFold_targetInv envs
    (List.range (⌊s.spawnTimer + dt⌋).toNat)
    { s with spawnTimer := s.spawnTimer + dt - ↑(⌊s.spawnTimer + dt⌋).toNat } h1
  simpa using h2

/-! ## Word-id freshness -/

/-- `spawnWord` keeps every active id below `nextWordId`. -/
theorem spawnWord_idInv (env : SpawnEnv) (s : GameState) (hid : IdInv s) :
    IdInv (spawnWord env s).2 := by
  simp only [spawnWord]
  split_ifs with h1 h2 hp
  · exact hid
  · exact hid
  · rcases hsh : env.shuffle s.missedWords with _ | ⟨t, rest⟩ <;> simp only [hsh]
    · exact hid
    · intro w hw
      simp only at hw
      rcases List.mem_append.mp hw with hw' | hw'
      · exact Nat.lt_succ_of_lt (hid w hw')
      · rcases List.mem_singleton.mp hw' with rfl
        exact Nat.lt_succ_self _
  · rcases hpl : s.pendingWords with _ | ⟨t, rest⟩ <;> simp only [hpl]
    · exact hid
    · intro w hw
      simp only at hw
      rcases List.mem_append.mp hw with hw' | hw'
      · exact Nat.lt_succ_of_lt (hid w hw')
      · rcases List.mem_singleton.mp hw' with rfl
        exact Nat.lt_succ_self _

/-- C8 (counterexample): the claim that `chooseSpawnX` keeps the word
inside the horizontal playfield for *every* measured text width is
false: with a 960-pixel canvas, a word measuring 2000 pixels and the
random draw 0, the returned position is `x = 18` with clamped width
`2016`, and `x + width = 2034` overflows `canvas.width - sidePadding =
942`. -/
theorem c8_counterexample :
    ¬ (sidePadding ≤ (chooseSpawnX 960 (fun _ => 2000) 0 "wide").1 ∧
       (chooseSpawnX 960 (fun _ => 2000) 0 "wide").1 +
         (chooseSpawnX 960 (fun _ => 2000) 0 "wide").2 ≤ 960 - sidePadding) := by
  intro h
  have h2 := h.2
  norm_num [chooseSpawnX, sidePadding] at h2

/-- C8 (amended): for every canvas width, measurement, text and random
draw `r ∈ [0, 1)`, the `x` returned by `chooseSpawnX` satisfies
`x ≥ sidePadding`; and whenever the clamped word width leaves at least
one pixel of slack in the playfield (`width ≤ canvasWidth -
2·sidePadding - 1`, which makes the randomised range `maxX - minX ≥ 1`
so that the `Math.max(1, …)` clamp is inactive) the word also stays
inside the right bound: `x + width ≤ canvasWidth - sidePadding`.  Words
wider than that can overflow the right bound. -/
theorem c8_chooseSpawnX_bounds (canvasWidth : ℚ) (measure : String → ℚ)
    (r : ℚ) (text : String) (hr0 : 0 ≤ r) (hr1 : r < 1) :
    sidePadding ≤ (chooseSpawnX canvasWidth measure r text).1 ∧
    ((chooseSpawnX canvasWidth measure r text).2 ≤
        canvasWidth - 2 * sidePadding - 1 →
      (chooseSpawnX canvasWidth measure r text).1 +
        (chooseSpawnX canvasWidth measure r text).2 ≤
          canvasWidth - sidePadding) := by
  simp only [chooseSpawnX, sidePadding]
  constructor
  · have h0 : (0:ℚ) ≤ r * max 1 (canvasWidth - 18 - max 40 (measure text + 16) - 18) :=
      mul_nonneg hr0 (le_trans zero_le_one (le_max_left _ _))
    linarith
  · intro hw
    have hd : (1:ℚ) ≤ canvasWidth - 18 - max 40 (measure text + 16) - 18 := by
      linarith
    rw [max_eq_right hd]
    have hrd : r * (canvasWidth - 18 - max 40 (measure text + 16) - 18) ≤
        canvasWidth - 18 - max 40 (measure text + 16) - 18 := by
      nlinarith
    linarith

theorem c8_witness :
    sidePadding ≤ (chooseSpawnX 960 (fun _ => 100) (1/2) "dog").1 ∧
    (chooseSpawnX 960 (fun _ => 100) (1/2) "dog").1 +
      (chooseSpawnX 960 (fun _ => 100) (1/2) "dog").2 ≤ 960 - sidePadding :=
  ⟨(c8_chooseSpawnX_bounds 960 (fun _ => 100) (1/2) "dog" (by norm_num) (by norm_num)).1,
   (c8_chooseSpawnX_bounds 960 (fun _ => 100) (1/2) "dog" (by norm_num) (by norm_num)).2
     (by norm_num [chooseSpawnX, sidePadding])⟩

/-- C9: the PUT settings/accent handler accepts a body whose trimmed
accent is exactly `en-US` or `en-GB` and rejects every other value with
a bad-request error, persisting nothing; on acceptance it persists the
accent (the saved config carries it, with the stored wordbook untouched)
and responds with the saved settings snapshot echoing the accepted
accent. -/
theorem c9_handleSettingsAccent_spec (serverDir : String) (stored : AppConfig)
    (reqAccent : String) :
    (goTrimSpace reqAccent ≠ "en-US" → goTrimSpace reqAccent ≠ "en-GB" →
      handleSettingsAccent serverDir stored reqAccent = AccentOutcome.badRequest) ∧
    (goTrimSpace reqAccent = "en-US" ∨ goTrimSpace reqAccent = "en-GB" →
      ∃ cfg, handleSettingsAccent serverDir stored reqAccent =
          AccentOutcome.ok cfg
            { accent := goTrimSpace reqAccent, wordbook := cfg.wordbook } ∧
        cfg.accent = goTrimSpace reqAccent ∧
        cfg.wordbook = stored.wordbook) := by
  constructor
  · intro h1 h2
    simp only [handleSettingsAccent]
    rw [if_pos ⟨h1, h2⟩]
  · intro h
    have hne : ¬(goTrimSpace reqAccent ≠ "en-US" ∧ goTrimSpace reqAccent ≠ "en-GB") := by
      rcases h with h | h <;> simp [h]
    simp only [handleSettingsAccent]
    rw [if_neg hne]
    refine ⟨_, rfl, rfl, ?_⟩
    split_ifs <;> rfl

theorem c9_witness :
    (handleSettingsAccent "/books"
        { host := "", port := 0, wordbooksDir := "", openBrowser := false,
          accent := "", wordbook := "animals" } "fr-FR" =
      AccentOutcome.badRequest) ∧
    ∃ cfg, handleSettingsAccent "/books"
        { host := "", port := 0, wordbooksDir := "", openBrowser := false,
          accent := "", wordbook := "animals" } " en-GB " =
        AccentOutcome.ok cfg { accent := goTrimSpace " en-GB ", wordbook := cfg.wordbook } ∧
      cfg.accent = goTrimSpace " en-GB " ∧ cfg.wordbook = "animals" :=
  ⟨(c9_handleSettingsAccent_spec "/books"
      { host := "", port := 0, wordbooksDir := "", openBrowser := false,
        accent := "", wordbook := "animals" } "fr-FR").1 (by decide) (by decide),
   (c9_handleSettingsAccent_spec "/books"
      { host := "", port := 0, wordbooksDir := "", openBrowser := false,
        accent := "", wordbook := "animals" } " en-GB ").2 (Or.inr (by decide))⟩

/-! ## Field-preservation lemmas and the frozen-state invariant -/

theorem onWordMissed_proj (s : GameState) (w : Word) :
    (onWordMissed s w).frozen = s.frozen ∧
    (onWordMissed s w).nextWordId = s.nextWordId ∧
    (onWordMissed s w).running = s.running ∧
    (onWordMissed s w).gameOver = s.gameOver := by
  simp only [onWordMissed, clearInputTracking]
  split_ifs <;> simp

theorem fallLoop_proj (speed dt groundY : ℚ) :
    ∀ (s : GameState) (survivors ws : List Word),
      (fallLoop speed dt groundY s survivors ws).frozen = s.frozen ∧
      (fallLoop speed dt groundY s survivors ws).nextWordId = s.nextWordId ∧
      (fallLoop speed dt groundY s survivors ws).running = s.running ∧
      (fallLoop speed dt groundY s survivors ws).gameOver = s.gameOver
  | _, _, [] => ⟨rfl, rfl, rfl, rfl⟩
  | s, survivors, w :: rest => by
    simp only [fallLoop]
    split_ifs with h
    · have ih := fallLoop_proj speed dt groundY
        (onWordMissed s { w with y := w.y + speed * dt }) survivors rest
      have hm := onWordMissed_proj s { w with y := w.y + speed * dt }
      exact ⟨ih.1.trans hm.1, ih.2.1.trans hm.2.1, ih.2.2.1.trans hm.2.2.1,
        ih.2.2.2.trans hm.2.2.2⟩
    · exact fallLoop_proj speed dt groundY s (survivors ++ [_]) rest

theorem spawnWord_proj (env : SpawnEnv) (s : GameState) :
    ((spawnWord env s).2).frozen = s.frozen ∧
    ((spawnWord env s).2).inputBuffer = s.inputBuffer ∧
    ((spawnWord env s).2).targetWordId = s.targetWordId ∧
    ((spawnWord env s).2).running = s.running ∧
    ((spawnWord env s).2).gameOver = s.gameOver ∧
    s.nextWordId ≤ ((spawnWord env s).2).nextWordId := by
  simp only [spawnWord]
  split_ifs with h1 h2 hp
  · exact ⟨rfl, rfl, rfl, rfl, rfl, le_refl _⟩
  · exact ⟨rfl, rfl, rfl, rfl, rfl, le_refl _⟩
  · rcases hsh : env.shuffle s.missedWords with _ | ⟨t, rest⟩ <;> simp [hsh]
  · rcases hpl : s.pendingWords with _ | ⟨t, rest⟩ <;> simp [hpl]

theorem maybeFinishGame_proj (s : GameState) :
    (maybeFinishGame s).frozen = s.frozen ∧
    (maybeFinishGame s).inputBuffer = s.inputBuffer ∧
    (maybeFinishGame s).targetWordId = s.targetWordId ∧
    (maybeFinishGame s).activeWords = s.activeWords ∧
    (maybeFinishGame s).nextWordId = s.nextWordId := by
  unfold maybeFinishGame
  split_ifs <;> simp

theorem spawnFold_proj (envs : Nat → SpawnEnv) :
    ∀ (l : List Nat) (s : GameState),
      ((l.foldl (fun st i => (spawnWord (envs i) st).2) s)).frozen = s.frozen ∧
      ((l.foldl (fun st i => (spawnWord (envs i) st).2) s)).running = s.running ∧
      ((l.foldl (fun st i => (spawnWord (envs i) st).2) s)).gameOver = s.gameOver ∧
      s.nextWordId ≤ ((l.foldl (fun st i => (spawnWord (envs i) st).2) s)).nextWordId
  | [], _ => ⟨rfl, rfl, rfl, le_refl _⟩
  | i :: l, s => by
    rw [List.foldl_cons]
    have ih := spawnFold_proj envs l ((spawnWord (envs i) s).2)
    have hp := spawnWord_proj (envs i) s
    exact ⟨ih.1.trans hp.1, ih.2.1.trans hp.2.2.2.1, ih.2.2.1.trans hp.2.2.2.2.1,
      le_trans hp.2.2.2.2.2 ih.2.2.2⟩

theorem updateWorld_frozen_eq (envs : Nat → SpawnEnv) (speed groundY dt : ℚ)
    (s : GameState) :
    (updateWorld envs speed groundY dt s).frozen = s.frozen := by
  unfold updateWorld
  rw [(maybeFinishGame_proj _).1, (fallLoop_proj _ _ _ _ _ _).1,
    (spawnFold_proj _ _ _).1]

theorem finishSolveSequence_frozen (s : GameState) :
    (finishSolveSequence s).frozen = false := by
  unfold finishSolveSequence
  rw [(maybeFinishGame_proj _).1]

theorem frozenInv_clearInputTracking (s : GameState) :
    FrozenInv (clearInputTracking s) :=
  fun _ => ⟨rfl, rfl⟩

theorem applyCommit_frozenInv (s : GameState) (nb : String) (t : Word)
    (hf : s.frozen = false) : FrozenInv (applyCommit s nb t) := by
  simp only [applyCommit]
  split_ifs with h
  · rcases hrem : (removeActiveWordById s.activeWords t.id).1 with _ | u <;>
      simp only [hrem]
    · exact frozenInv_clearInputTracking _
    · intro _
      exact ⟨rfl, rfl⟩
  · intro hfr
    exact absurd hfr (by simp [hf])

theorem handleTypedCharacter_frozenInv (s : GameState) (ch : Char)
    (hs : FrozenInv s) : FrozenInv (handleTypedCharacter s ch) := by
  unfold handleTypedCharacter
  split_ifs with h
  · exact hs
  · have hf : s.frozen = false := by
      cases hfz : s.frozen
      · rfl
      · exact absurd (by simp [hfz]) h
    rcases h1 : chooseTarget s.activeWords (s.inputBuffer.push ch.toLower) with _ | t
    · simp only [h1]
      by_cases hin : 0 < s.inputBuffer.length
      · simp only [hin, if_true]
        rcases h2 : chooseTarget s.activeWords (String.singleton ch.toLower) with _ | t
        · simp only [h2]
          exact frozenInv_clearInputTracking _
        · simp only [h2]
          exact applyCommit_frozenInv { s with combo := 0 } _ t hf
      · simp only [hin, if_false]
        rcases h2 : chooseTarget s.activeWords (String.singleton ch.toLower) with _ | t
        · simp only [h2]
          exact frozenInv_clearInputTracking _
        · simp only [h2]
          exact applyCommit_frozenInv s _ t hf
    · simp only [h1]
      exact applyCommit_frozenInv s _ t hf

theorem handleControlKey_frozenInv (s : GameState) (k : ControlKey)
    (hs : FrozenInv s) : FrozenInv (handleControlKey s k) := by
  cases k with
  | escape => exact frozenInv_clearInputTracking s
  | backspace =>
    simp only [handleControlKey]
    split_ifs with h1 h2
    · exact hs
    · intro hfr
      rcases hs hfr with ⟨hb, _⟩
      rw [hb] at h1
      exact absurd rfl h1
    · rcases hch : chooseTarget s.activeWords (s.inputBuffer.dropRight 1) with _ | t <;>
        simp only [hch] <;>
        (intro hfr
         rcases hs hfr with ⟨hb, _⟩
         rw [hb] at h1
         exact absurd rfl h1)

theorem keydownListener_frozenInv (s : GameState) (e : KeyEvent)
    (hs : FrozenInv s) : FrozenInv (keydownListener s e) := by
  unfold keydownListener
  split_ifs with h
  · exact hs
  · cases e with
    | printable c =>
      by_cases hl : isLatinLetter c
      · simpa [hl] using handleTypedCharacter_frozenInv s c hs
      · simpa [hl] using hs
    | backspace => exact handleControlKey_frozenInv s ControlKey.backspace hs
    | escape => exact handleControlKey_frozenInv s ControlKey.escape hs
    | other => exact hs

/-! ## Preservation of id freshness and id ordering -/

theorem removeActiveWordById_sublist :
    ∀ (ws : List Word) (i : Nat), List.Sublist (removeActiveWordById ws i).2 ws
  | [], _ => List.Sublist.refl []
  | w :: ws, i => by
    simp only [removeActiveWordById]
    split_ifs with h
    · exact List.sublist_cons_self w ws
    · exact List.Sublist.cons₂ w (removeActiveWordById_sublist ws i)

theorem applyCommit_idInv (s : GameState) (nb : String) (t : Word)
    (h : IdInv s) : IdInv (applyCommit s nb t) := by
  simp only [applyCommit]
  split_ifs with hc
  · rcases hrem : (removeActiveWordById s.activeWords t.id).1 with _ | u <;>
      simp only [hrem]
    · intro w hw
      exact h w ((removeActiveWordById_sublist s.activeWords t.id).subset hw)
    · intro w hw
      exact h w ((removeActiveWordById_sublist s.activeWords t.id).subset hw)
  · exact h

theorem handleControlKey_proj (s : GameState) (k : ControlKey) :
    (handleControlKey s k).activeWords = s.activeWords ∧
    (handleControlKey s k).nextWordId = s.nextWordId := by
  cases k with
  | backspace =>
    simp only [handleControlKey]
    split_ifs with h1 h2
    · exact ⟨rfl, rfl⟩
    · exact ⟨rfl, rfl⟩
    · rcases h : chooseTarget s.activeWords (s.inputBuffer.dropRight 1) with _ | t <;>
        simp [h]
  | escape => exact ⟨rfl, rfl⟩

theorem handleTypedCharacter_idInv (s : GameState) (ch : Char)
    (h : IdInv s) : IdInv (handleTypedCharacter s ch) := by
  unfold handleTypedCharacter
  split_ifs with hg
  · exact h
  · rcases h1 : chooseTarget s.activeWords (s.inputBuffer.push ch.toLower) with _ | t
    · simp only [h1]
      by_cases hin : 0 < s.inputBuffer.length
      · simp only [hin, if_true]
        rcases h2 : chooseTarget s.activeWords (String.singleton ch.toLower) with _ | t
        · simp only [h2]
          exact h
        · simp only [h2]
          exact applyCommit_idInv { s with combo := 0 } _ t h
      · simp only [hin, if_false]
        rcases h2 : chooseTarget s.activeWords (String.singleton ch.toLower) with _ | t
        · simp only [h2]
          exact h
        · simp only [h2]
          exact applyCommit_idInv s _ t h
    · simp only [h1]
      exact applyCommit_idInv s _ t h

theorem keydownListener_idInv (s : GameState) (e : KeyEvent)
    (h : IdInv s) : IdInv (keydownListener s e) := by
  unfold keydownListener
  split_ifs with hg
  · exact h
  · cases e with
    | printable c =>
      by_cases hl : isLatinLetter c
      · simpa [hl] using handleTypedCharacter_idInv s c h
      · simpa [hl] using h
    | backspace =>
      intro w hw
      rw [(handleControlKey_proj s ControlKey.backspace).1] at hw
      rw [(handleControlKey_proj s ControlKey.backspace).2]
      exact h w hw
    | escape => exact h
    | other => exact h

theorem fallLoop_idInv (speed dt groundY : ℚ) :
    ∀ (s : GameState) (survivors ws : List Word),
      (∀ w ∈ survivors ++ ws, w.id < s.nextWordId) →
      IdInv (fallLoop speed dt groundY s survivors ws)
  | s, survivors, [], h => by
    intro w hw
    exact h w (List.mem_append_left _ hw)
  | s, survivors, w :: rest, h => by
    simp only [fallLoop]
    split_ifs with hg
    · apply fallLoop_idInv speed dt groundY _ survivors rest
      intro v hv
      rw [(onWordMissed_proj s _).2.1]
      apply h v
      rcases List.mem_append.mp hv with hv' | hv'
      · exact List.mem_append_left _ hv'
      · exact List.mem_append_right _ (List.mem_cons_of_mem w hv')
    · apply fallLoop_idInv speed dt groundY s (survivors ++ [_]) rest
      intro v hv
      rcases List.mem_append.mp hv with hv' | hv'
      · rcases List.mem_append.mp hv' with hv'' | hv''
        · exact h v (List.mem_append_left _ hv'')
        · rcases List.mem_singleton.mp hv'' with rfl
          exact h w (List.mem_append_right _ (List.mem_cons_self w rest))
      · exact h v (List.mem_append_right _ (List.mem_cons_of_mem w hv'))

theorem spawnFold_idInv (envs : Nat → SpawnEnv) :
    ∀ (l : List Nat) (s : GameState), IdInv s →
      IdInv (l.foldl (fun st i => (spawnWord (envs i) st).2) s)
  | [], _, h => h
  | i :: l, s, h => by
    rw [List.foldl_cons]
    exact spawnFold_idInv envs l _ (spawnWord_idInv (envs i) s h)

theorem updateWorld_idInv (envs : Nat → SpawnEnv) (speed groundY dt : ℚ)
    (s : GameState) (h : IdInv s) :
    IdInv (updateWorld envs speed groundY dt s) := by
  unfold updateWorld
  have h2 := spawnFold_idInv envs (List.range (⌊s.spawnTimer + dt⌋).toNat)
    { s with spawnTimer := s.spawnTimer + dt - ↑(⌊s.spawnTimer + dt⌋).toNat } h
  have h3 := fallLoop_idInv speed dt groundY _ [] _
    (fun w hw => h2 w (by simpa using hw))
  intro w hw
  rw [(maybeFinishGame_proj _).2.2.2.2]
  exact h3 w (by rw [(maybeFinishGame_proj _).2.2.2.1] at hw; exact hw)

theorem applyCommit_sorted (s : GameState) (nb : String) (t : Word)
    (h : SortedIds s) : SortedIds (applyCommit s nb t) := by
  simp only [applyCommit]
  split_ifs with hc
  · rcases hrem : (removeActiveWordById s.activeWords t.id).1 with _ | u <;>
      simp only [hrem]
    · exact List.Pairwise.sublist
        (List.Sublist.map Word.id (removeActiveWordById_sublist _ _)) h
    · exact List.Pairwise.sublist
        (List.Sublist.map Word.id (removeActiveWordById_sublist _ _)) h
  · exact h

theorem handleTypedCharacter_sorted (s : GameState) (ch : Char)
    (h : SortedIds s) : SortedIds (handleTypedCharacter s ch) := by
  unfold handleTypedCharacter
  split_ifs with hg
  · exact h
  · rcases h1 : chooseTarget s.activeWords (s.inputBuffer.push ch.toLower) with _ | t
    · simp only [h1]
      by_cases hin : 0 < s.inputBuffer.length
      · simp only [hin, if_true]
        rcases h2 : chooseTarget s.activeWords (String.singleton ch.toLower) with _ | t
        · simp only [h2]
          exact h
        · simp only [h2]
          exact applyCommit_sorted { s with combo := 0 } _ t h
      · simp only [hin, if_false]
        rcases h2 : chooseTarget s.activeWords (String.singleton ch.toLower) with _ | t
        · simp only [h2]
          exact h
        · simp only [h2]
          exact applyCommit_sorted s _ t h
    · simp only [h1]
      exact applyCommit_sorted s _ t h

theorem keydownListener_sorted (s : GameState) (e : KeyEvent)
    (h : SortedIds s) : SortedIds (keydownListener s e) := by
  unfold keydownListener
  split_ifs with hg
  · exact h
  · cases e with
    | printable c =>
      by_cases hl : isLatinLetter c
      · simpa [hl] using handleTypedCharacter_sorted s c h
      · simpa [hl] using h
    | backspace =>
      unfold SortedIds
      rw [(handleControlKey_proj s ControlKey.backspace).1]
      exact h
    | escape => exact h
    | other => exact h

theorem spawnWord_sorted (env : SpawnEnv) (s : GameState)
    (hid : IdInv s) (h : SortedIds s) : SortedIds (spawnWord env s).2 := by
  simp only [spawnWord]
  split_ifs with h1 h2 hp
  · exact h
  · exact h
  · rcases hsh : env.shuffle s.missedWords with _ | ⟨t, rest⟩ <;> simp only [hsh]
    · exact h
    · simp only [SortedIds, List.map_append, List.map_cons, List.map_nil]
      refine List.pairwise_append.mpr ⟨h, by simp, ?_⟩
      intro a ha b hb
      rcases List.mem_map.mp ha with ⟨w, hw, rfl⟩
      rw [List.mem_singleton.mp hb]
      exact hid w hw
  · rcases hpl : s.pendingWords with _ | ⟨t, rest⟩ <;> simp only [hpl]
    · exact h
    · simp only [SortedIds, List.map_append, List.map_cons, List.map_nil]
      refine List.pairwise_append.mpr ⟨h, by simp, ?_⟩
      intro a ha b hb
      rcases List.mem_map.mp ha with ⟨w, hw, rfl⟩
      rw [List.mem_singleton.mp hb]
      exact hid w hw

theorem spawnFold_sorted (envs : Nat → SpawnEnv) :
    ∀ (l : List Nat) (s : GameState), IdInv s → SortedIds s →
      SortedIds (l.foldl (fun st i => (spawnWord (envs i) st).2) s)
  | [], _, _, h => h
  | i :: l, s, hid, h => by
    rw [List.foldl_cons]
    exact spawnFold_sorted envs l _ (spawnWord_idInv (envs i) s hid)
      (spawnWord_sorted (envs i) s hid h)

theorem fallLoop_sorted (speed dt groundY : ℚ) :
    ∀ (s : GameState) (survivors ws : List Word),
      List.Pairwise (fun a b => a < b) ((survivors ++ ws).map Word.id) →
      SortedIds (fallLoop speed dt groundY s survivors ws)
  | s, survivors, [], h => by
    simpa [SortedIds] using h
  | s, survivors, w :: rest, h => by
    simp only [fallLoop]
    split_ifs with hg
    · apply fallLoop_sorted speed dt groundY _ survivors rest
      exact List.Pairwise.sublist
        (List.Sublist.map Word.id
          ((List.sublist_cons_self w rest).append_left survivors)) h
    · apply fallLoop_sorted speed dt groundY s (survivors ++ [_]) rest
      have heq : ((survivors ++ [{ w with y := w.y + speed * dt }]) ++ rest).map Word.id =
          (survivors ++ w :: rest).map Word.id := by
        simp
      rw [heq]
      exact h

theorem maybeFinishGame_sorted (s : GameState) (h : SortedIds s) :
    SortedIds (maybeFinishGame s) := by
  unfold SortedIds
  rw [(maybeFinishGame_proj _).2.2.2.1]
  exact h

theorem updateWorld_sorted (envs : Nat → SpawnEnv) (speed groundY dt : ℚ)
    (s : GameState) (hid : IdInv s) (h : SortedIds s) :
    SortedIds (updateWorld envs speed groundY dt s) := by
  simp only [updateWorld]
  apply maybeFinishGame_sorted
  apply fallLoop_sorted
  have h2 := spawnFold_sorted envs (List.range (⌊s.spawnTimer + dt⌋).toNat)
    { s with spawnTimer := s.spawnTimer + dt - ↑(⌊s.spawnTimer + dt⌋).toNat } hid h
  simpa [SortedIds] using h2

/-! ## The reachable-state invariant -/

theorem finishSolveSequence_idInv (s : GameState) (h : IdInv s) :
    IdInv (finishSolveSequence s) := by
  unfold finishSolveSequence
  intro w hw
  rw [(maybeFinishGame_proj _).2.2.2.2]
  rw [(maybeFinishGame_proj _).2.2.2.1] at hw
  exact h w hw

theorem finishSolveSequence_sorted (s : GameState) (h : SortedIds s) :
    SortedIds (finishSolveSequence s) := by
  unfold finishSolveSequence
  exact maybeFinishGame_sorted _ h

/-- Every reachable engine state satisfies the frozen-state invariant,
the targeting invariant, the id-freshness bound and the id ordering of
`activeWords`. -/
theorem reachable_inv (s : GameState) (h : Reachable s) :
    FrozenInv s ∧ TargetInv s ∧ IdInv s ∧ SortedIds s := by
  induction h with
  | init =>
    refine ⟨?_, targetInv_of_none rfl, ?_, List.Pairwise.nil⟩
    · intro hf
      exact Bool.noConfusion hf
    · intro w hw
      exact absurd hw (List.not_mem_nil w)
  | key s e _ ih =>
    exact ⟨keydownListener_frozenInv s e ih.1, keydownListener_targetInv s e ih.2.1,
      keydownListener_idInv s e ih.2.2.1, keydownListener_sorted s e ih.2.2.2⟩
  | tick s envs speed groundY dt _ hrun hfz hgo ih =>
    refine ⟨?_, updateWorld_targetInv envs speed groundY dt s ih.2.1,
      updateWorld_idInv envs speed groundY dt s ih.2.2.1,
      updateWorld_sorted envs speed groundY dt s ih.2.2.1 ih.2.2.2⟩
    intro hf
    rw [updateWorld_frozen_eq] at hf
    rw [hfz] at hf
    exact Bool.noConfusion hf
  | solveResume s _ hf ih =>
    refine ⟨?_, ?_, finishSolveSequence_idInv s ih.2.2.1,
      finishSolveSequence_sorted s ih.2.2.2⟩
    · intro hfr
      rw [finishSolveSequence_frozen] at hfr
      exact Bool.noConfusion hfr
    · exact maybeFinishGame_targetInv _ ih.2.1
  | start s ws env _ ih =>
    refine ⟨?_, spawnWord_targetInv env _ (targetInv_of_none rfl),
      spawnWord_idInv env _ (fun w hw => absurd hw (List.not_mem_nil w)),
      spawnWord_sorted env _ (fun w hw => absurd hw (List.not_mem_nil w))
        List.Pairwise.nil⟩
    intro hfr
    rw [(spawnWord_proj env _).1] at hfr
    exact Bool.noConfusion hfr
  | setup s _ ih =>
    exact ⟨frozenInv_clearInputTracking _, clearInputTracking_targetInv _,
      ih.2.2.1, ih.2.2.2⟩

/-- In a frozen state whose input tracking is cleared, every keydown is
a no-op. -/
theorem keydownListener_frozen_noop (s : GameState) (e : KeyEvent)
    (hf : s.frozen = true) (hb : s.inputBuffer = "")
    (ht : s.targetWordId = none) :
    keydownListener s e = s := by
  unfold keydownListener
  by_cases hr : s.running
  · cases e with
    | printable c =>
      by_cases hl : isLatinLetter c
      · simp only [hr, Bool.not_true, Bool.false_eq_true, if_false, hl, if_true]
        unfold handleTypedCharacter
        simp [hf]
      · simp [hr, hl]
    | backspace =>
      simp only [hr, Bool.not_true, Bool.false_eq_true, if_false]
      unfold handleControlKey
      simp [hb]
    | escape =>
      simp only [hr, Bool.not_true, Bool.false_eq_true, if_false]
      unfold handleControlKey clearInputTracking
      rw [← hb, ← ht]
    | other => simp [hr]
  · simp [Bool.not_eq_true] at hr
    simp [hr]

/-- C2: for every input event delivered while `frozen` is true —
printable characters as well as Backspace and Escape — in any state the
engine can actually reach, the session state is completely unchanged
(no mutation of `inputBuffer`, `targetWordId`, `combo`, `score` or any
word pool; input is ignored, not deferred). -/
theorem c2_frozen_input_ignored (s : GameState) (e : KeyEvent)
    (hre : Reachable s) (hf : s.frozen = true) :
    keydownListener s e = s :=
  keydownListener_frozen_noop s e hf ((reachable_inv s hre).1 hf).1
    ((reachable_inv s hre).1 hf).2

theorem c2_witness :
    keydownListener
      { running := true, frozen := true, gameOver := false, score := 1, combo := 1,
        inputBuffer := "", targetWordId := none, pendingWords := [], activeWords := [],
        missedWords := [], spawnTimer := 0, nextWordId := 2, maxActiveWords := 8 }
      KeyEvent.backspace =
    { running := true, frozen := true, gameOver := false, score := 1, combo := 1,
      inputBuffer := "", targetWordId := none, pendingWords := [], activeWords := [],
      missedWords := [], spawnTimer := 0, nextWordId := 2, maxActiveWords := 8 } :=
  c2_frozen_input_ignored _ KeyEvent.backspace
    (by
      have h : keydownListener
          ((spawnWord
            { shuffle := fun l => l, canvasWidth := 960, measure := fun _ => 40,
              rand := 0 }
            { resetRuntimeState initState with pendingWords := ["a"] }).2)
          (KeyEvent.printable 'a') =
          { running := true, frozen := true, gameOver := false, score := 1, combo := 1,
            inputBuffer := "", targetWordId := none, pendingWords := [],
            activeWords := [], missedWords := [], spawnTimer := 0, nextWordId := 2,
            maxActiveWords := 8 } := by
        decide
      exact h ▸ Reachable.key _ (KeyEvent.printable 'a')
        (Reachable.start initState ["a"] _ Reachable.init))
    rfl

/-- C6: the targeting invariant — whenever `targetWordId` is non-null a
word with that id is present in `activeWords` and its text starts with
`inputBuffer` — is preserved by every engine operation (typed character,
Backspace, Escape, the tick / fall update, spawning, the completion
check, solve resumption and the runtime reset), hence holds in every
reachable state; and any event removing the targeted word from the
active set (a miss of the target, or the solve step inside the commit)
clears targeting in the same step. -/
theorem c6_target_invariant_preserved :
    (∀ (s : GameState) (ch : Char), TargetInv s →
      TargetInv (handleTypedCharacter s ch)) ∧
    (∀ (s : GameState) (k : ControlKey), TargetInv s →
      TargetInv (handleControlKey s k)) ∧
    (∀ (s : GameState) (e : KeyEvent), TargetInv s →
      TargetInv (keydownListener s e)) ∧
    (∀ (envs : Nat → SpawnEnv) (speed groundY dt : ℚ) (s : GameState),
      TargetInv s → TargetInv (updateWorld envs speed groundY dt s)) ∧
    (∀ (env : SpawnEnv) (s : GameState), TargetInv s →
      TargetInv ((spawnWord env s).2)) ∧
    (∀ (s : GameState), TargetInv s → TargetInv (maybeFinishGame s)) ∧
    (∀ (s : GameState), TargetInv s → TargetInv (finishSolveSequence s)) ∧
    (∀ (s : GameState), TargetInv (resetRuntimeState s)) ∧
    (∀ (s : GameState) (w : Word), s.targetWordId = some w.id →
      (onWordMissed s w).targetWordId = none) ∧
    (∀ (s : GameState) (nb : String) (t : Word), nb = t.text →
      (applyCommit s nb t).targetWordId = none) ∧
    (∀ (s : GameState), Reachable s → TargetInv s) := by
  refine ⟨handleTypedCharacter_targetInv, handleControlKey_targetInv,
    keydownListener_targetInv, updateWorld_targetInv, spawnWord_targetInv,
    maybeFinishGame_targetInv, ?_, ?_, onWordMissed_clears_target, ?_,
    fun s h => (reachable_inv s h).2.1⟩
  · intro s hs
    exact maybeFinishGame_targetInv _ hs
  · intro s
    exact targetInv_of_none rfl
  · intro s nb t h
    simp only [applyCommit]
    rw [if_pos (by simpa using h)]
    rcases hrem : (removeActiveWordById s.activeWords t.id).1 with _ | u <;>
      simp [hrem, clearInputTracking, onWordSolvedSync]

theorem c6_witness :
    TargetInv
      { running := true, frozen := false, gameOver := false, score := 0, combo := 0,
        inputBuffer := "ca", targetWordId := some 1,
        pendingWords := [], activeWords := [Word.mk 1 "cat" 0 10 50],
        missedWords := [], spawnTimer := 0, nextWordId := 2, maxActiveWords := 8 } ∧
    TargetInv (handleTypedCharacter
      { running := true, frozen := false, gameOver := false, score := 0, combo := 0,
        inputBuffer := "ca", targetWordId := some 1,
        pendingWords := [], activeWords := [Word.mk 1 "cat" 0 10 50],
        missedWords := [], spawnTimer := 0, nextWordId := 2, maxActiveWords := 8 }
      't') :=
  ⟨fun i hi => ⟨Word.mk 1 "cat" 0 10 50, List.mem_cons_self _ _,
      Option.some.inj hi, by decide⟩,
   c6_target_invariant_preserved.1 _ 't'
     (fun i hi => ⟨Word.mk 1 "cat" 0 10 50, List.mem_cons_self _ _,
       Option.some.inj hi, by decide⟩)⟩

/-- C7: `spawnWord` returns `false` without changing state when the
active pool is at `maxActiveWords`, and also when both the pending and
missed pools are empty; when only the pending pool is empty it is
refilled with a shuffled copy of `missedWords` (which is cleared), and a
still-empty queue makes the spawn fail; otherwise the first pending text
is dequeued and a fresh word is appended at the top line with id
`nextWordId` — strictly greater than every previously assigned id: all
active ids stay below the counter in every reachable state, the counter
never decreases, and each successful spawn bumps it past the fresh id,
so ids are monotonically increasing and never reused. -/
theorem c7_spawnWord_spec (env : SpawnEnv) (s : GameState) :
    (s.maxActiveWords ≤ s.activeWords.length → spawnWord env s = (false, s)) ∧
    (s.activeWords.length < s.maxActiveWords → s.pendingWords = [] →
      s.missedWords = [] → spawnWord env s = (false, s)) ∧
    (s.activeWords.length < s.maxActiveWords → s.pendingWords = [] →
      s.missedWords ≠ [] → env.shuffle s.missedWords = [] →
      spawnWord env s = (false, { s with pendingWords := [], missedWords := [] })) ∧
    (∀ text rest, s.activeWords.length < s.maxActiveWords → s.pendingWords = [] →
      s.missedWords ≠ [] → env.shuffle s.missedWords = text :: rest →
      spawnWord env s = (true,
        { s with
          pendingWords := rest, missedWords := [],
          activeWords := s.activeWords ++
            [Word.mk s.nextWordId text
              (chooseSpawnX env.canvasWidth env.measure env.rand text).1 topY
              (chooseSpawnX env.canvasWidth env.measure env.rand text).2],
          nextWordId := s.nextWordId + 1 })) ∧
    (∀ text rest, s.activeWords.length < s.maxActiveWords →
      s.pendingWords = text :: rest →
      spawnWord env s = (true,
        { s with
          pendingWords := rest,
          activeWords := s.activeWords ++
            [Word.mk s.nextWordId text
              (chooseSpawnX env.canvasWidth env.measure env.rand text).1 topY
              (chooseSpawnX env.canvasWidth env.measure env.rand text).2],
          nextWordId := s.nextWordId + 1 })) ∧
    (IdInv s → IdInv (spawnWord env s).2) ∧
    (s.nextWordId ≤ ((spawnWord env s).2).nextWordId) ∧
    (∀ s' : GameState, Reachable s' → IdInv s') := by
  refine ⟨?_, ?_, ?_, ?_, ?_, spawnWord_idInv env s, (spawnWord_proj env s).2.2.2.2.2,
    fun s' h => (reachable_inv s' h).2.2.1⟩
  · intro h
    simp [spawnWord, h]
  · intro hlen hp hm
    simp [spawnWord, Nat.not_le.mpr hlen, hp, hm]
  · intro hlen hp hm hsh
    simp [spawnWord, Nat.not_le.mpr hlen, hp, hm, hsh]
  · intro text rest hlen hp hm hsh
    simp [spawnWord, Nat.not_le.mpr hlen, hp, hm, hsh]
  · intro text rest hlen hp
    simp [spawnWord, Nat.not_le.mpr hlen, hp]

theorem c7_witness :
    spawnWord
      { shuffle := fun l => l, canvasWidth := 960,
        measure := fun _ => 40, rand := 0 }
      { running := true, frozen := false, gameOver := false, score := 0, combo := 0,
        inputBuffer := "", targetWordId := none,
        pendingWords := ["dog"], activeWords := [], missedWords := [],
        spawnTimer := 0, nextWordId := 5, maxActiveWords := 8 } =
    (true,
      { running := true, frozen := false, gameOver := false, score := 0, combo := 0,
        inputBuffer := "", targetWordId := none,
        pendingWords := [], activeWords := [Word.mk 5 "dog" 18 topY 56],
        missedWords := [], spawnTimer := 0, nextWordId := 6, maxActiveWords := 8 }) := by
  have h := (c7_spawnWord_spec
      { shuffle := fun l => l, canvasWidth := 960,
        measure := fun _ => 40, rand := 0 }
      { running := true, frozen := false, gameOver := false, score := 0, combo := 0,
        inputBuffer := "", targetWordId := none,
        pendingWords := ["dog"], activeWords := [], missedWords := [],
        spawnTimer := 0, nextWordId := 5, maxActiveWords := 8 }).2.2.2.2.1
    "dog" [] (by decide) rfl
  rw [h]
  norm_num [chooseSpawnX, sidePadding]

/-- C10 (implicit): when several active words matching the prefix share
the same maximal `y`, `chooseTarget` returns the earliest one in the
`activeWords` array (the best candidate is only replaced on strictly
greater `y`): under the id ordering the array maintains in every
reachable state — ids strictly increasing along the array, proved in the
second conjunct — the chosen word is the earliest-spawned, lowest-id one
among the tied words. -/
theorem c10_chooseTarget_tie_lowest_id :
    (∀ (active : List Word) (cand : String) (w : Word),
      active.Pairwise (fun a b => a.id < b.id) →
      chooseTarget active cand = some w →
      w ∈ active ∧ jsStartsWith w.text cand = true ∧
      (∀ v ∈ active, jsStartsWith v.text cand = true → v.y ≤ w.y) ∧
      (∀ v ∈ active, jsStartsWith v.text cand = true → v.y = w.y → w.id ≤ v.id)) ∧
    (∀ s : GameState, Reachable s →
      s.activeWords.Pairwise (fun a b => a.id < b.id)) := by
  constructor
  · intro active cand w hsort hw
    rcases chooseTargetAux_mem cand active none w hw with h' | h'
    · exact Option.noConfusion h'
    · exact ⟨h'.1, h'.2, (chooseTargetAux_dom cand active none w hw).2,
        chooseTargetAux_tie cand active none w hw
          (fun b hb => Option.noConfusion hb) hsort⟩
  · intro s hre
    exact List.pairwise_map.mp (reachable_inv s hre).2.2.2

theorem c10_witness :
    chooseTarget [Word.mk 1 "cat" 0 20 50, Word.mk 2 "car" 0 20 50] "ca" =
      some (Word.mk 1 "cat" 0 20 50) ∧
    ∀ v ∈ [Word.mk 1 "cat" 0 20 50, Word.mk 2 "car" 0 20 50],
      jsStartsWith v.text "ca" = true → v.y = (Word.mk 1 "cat" 0 20 50).y →
        (Word.mk 1 "cat" 0 20 50).id ≤ v.id :=
  ⟨by decide,
   (c10_chooseTarget_tie_lowest_id.1 _ "ca" _ (by decide) (by decide)).2.2.2⟩

end WordsRain
